import Mathlib

/-!
# Verification of the go-renby rename engine

Shallow embedding of the rename planning and execution engine of the
`hidez8891/go-renby` repository (the `renby` package: `Options.Validate`,
`getFileInfo`, `collectFileInfo`, `sortFiles`, `compareFiles`,
`generateNewName`, `RenameFiles`), together with models of the Go standard
library functions the engine calls (`path/filepath`: `Clean`, `Dir`, `Base`,
`Ext`, `Join`; `strings`: `Contains`, `TrimSuffix`; `fmt` zero-padded
integer verbs; `sort.Slice`).

The filesystem is modelled as an association list from paths to file
records; `os.Stat` / `os.Rename` / `os.Remove` operate on it and append
events to an I/O trace.  The only failures the model filesystem produces
are missing-path failures, matching the behaviours the claims are about.
Go's `time.Time` values are modelled as integers (nanosecond counts), so
`Time.Before` becomes `<` on `Int`.  Go strings are modelled by Lean
`String`; Go compares strings byte-wise, which for the valid-UTF-8 strings
manipulated here coincides with the code-point comparison `listLtChars`
defined below.
-/

/-! ## Characters, digits and number formatting (models of Go `fmt`/`strconv`) -/

/-- Digit character for a value `d < 16`, lowercase hex as produced by Go's
`%x` verb (`'0'` = 48, `'a'` = 97). -/
def digitChar (d : Nat) : Char :=
  if d < 10 then Char.ofNat (48 + d) else Char.ofNat (87 + d)

/-- Fuel-driven digit expansion, most significant digit first, as produced by
Go `strconv.FormatInt` for non-negative values.  The fuel only serves to make
the recursion structural; `natToBase` supplies enough fuel. -/
def natToBaseAux (b : Nat) : Nat → Nat → List Char
  | 0, _ => []
  | fuel + 1, n =>
    if n < b then [digitChar n]
    else natToBaseAux b fuel (n / b) ++ [digitChar (n % b)]

/-- Digits of `n` in base `b` (`b ≥ 2`), most significant first. -/
def natToBase (b n : Nat) : List Char := natToBaseAux b (n + 1) n

/-- Decimal rendering of a natural number; models Go's `%d` verb for the
non-negative values (pid, counter) it is applied to. -/
def decRepr (n : Nat) : String := ⟨natToBase 10 n⟩

/-- Left-pad a digit string with `'0'` to width `w`; if the digits already
exceed the width nothing is cut (the field grows). -/
def padZeros (w : Nat) (ds : List Char) : List Char :=
  List.replicate (w - ds.length) '0' ++ ds

/-- Model of Go `fmt.Sprintf` with verb `%0*d` (`b = 10`) or `%0*x`
(`b = 16`) applied to an `int`: zero padding to width `w`, the sign (for
negative arguments) occupying one of the padded cells. -/
def goFormatPad (w : Nat) (b : Nat) (n : Int) : String :=
  if n < 0 then ⟨'-' :: padZeros (w - 1) (natToBase b n.natAbs)⟩
  else ⟨padZeros w (natToBase b n.toNat)⟩

/-- Numeric value of a digit character produced by `digitChar`. -/
def digitVal (c : Char) : Nat :=
  if 97 ≤ c.toNat then c.toNat - 87 else c.toNat - 48

/-- Read a digit string back as a number (used to prove injectivity of the
rendering). -/
def parseBaseNum (b : Nat) (ds : List Char) : Nat :=
  ds.foldl (fun acc c => acc * b + digitVal c) 0

/-! ## Go string helpers -/

/-- Byte-wise lexicographic `<` on strings as Go's `<` operator computes it
(for the valid-UTF-8 strings handled here byte order and code-point order
agree). -/
def listLtChars : List Char → List Char → Bool
  | [], [] => false
  | [], _ :: _ => true
  | _ :: _, [] => false
  | a :: as, b :: bs =>
    if a < b then true else if b < a then false else listLtChars as bs

/-- Model of Go's string `<`. -/
def goStringLt (s t : String) : Bool := listLtChars s.data t.data

/-- Model of Go `strings.Contains` (substring occurrence) on char lists. -/
def goContainsList (sub : List Char) : List Char → Bool
  | [] => sub.isPrefixOf []
  | c :: rest => sub.isPrefixOf (c :: rest) || goContainsList sub rest

/-- Model of Go `strings.Contains`. -/
def goContains (s sub : String) : Bool := goContainsList sub.data s.data

/-- Model of Go `strings.TrimSuffix`. -/
def goTrimSuffix (s suffix : String) : String :=
  if suffix.data.isSuffixOf s.data then
    ⟨s.data.take (s.data.length - suffix.data.length)⟩
  else s

/-! ## Models of Go `path/filepath` (unix separator `'/'`, empty volume) -/

/-- `strings.Split` on `'/'`: maximal `'/'`-free runs, with empty runs kept. -/
def splitOnSlash : List Char → List (List Char)
  | [] => [[]]
  | c :: rest =>
    let r := splitOnSlash rest
    if c = '/' then [] :: r
    else
      match r with
      | [] => [[c]]
      | e :: es => (c :: e) :: es

/-- Element-level transcription of the loop of Go `filepath.Clean`:
empty and `"."` elements are dropped; `".."` pops the previously kept
element when one is available, is dropped at the root, and is kept when
there is nothing to pop in a relative path.  `acc` holds the kept elements
in reverse order (`".."` elements can only pile up at its end, mirroring
the `dotdot` marker of the Go code). -/
def cleanElems (rooted : Bool) : List (List Char) → List (List Char) → List (List Char)
  | acc, [] => acc
  | acc, e :: es =>
    if e = [] ∨ e = ['.'] then cleanElems rooted acc es
    else if e = ['.', '.'] then
      match acc with
      | a :: as =>
        if a = ['.', '.'] then cleanElems rooted (e :: acc) es
        else cleanElems rooted as es
      | [] =>
        if rooted then cleanElems rooted [] es
        else cleanElems rooted [e] es
    else cleanElems rooted (e :: acc) es

/-- Interleave `'/'` between path elements. -/
def joinElems : List (List Char) → List Char
  | [] => []
  | [e] => e
  | e :: es => e ++ '/' :: joinElems es

/-- Model of Go `filepath.Clean`. -/
def goClean (s : String) : String :=
  match s.data with
  | [] => "."
  | c :: cs =>
    let rooted := c = '/'
    let kept := (cleanElems rooted [] (splitOnSlash (c :: cs))).reverse
    let body := joinElems kept
    if rooted then ⟨'/' :: body⟩
    else if body = [] then "."
    else ⟨body⟩

/-- Scan for `filepath.Ext`: walk the reversed path, stopping at a separator
(no extension) or at the final dot of the last element. -/
def extScan : List Char → List Char → Option (List Char)
  | _, [] => none
  | acc, c :: rest =>
    if c = '/' then none
    else if c = '.' then some (c :: acc)
    else extScan (c :: acc) rest

/-- Model of Go `filepath.Ext`: the suffix beginning at the final dot in the
final element of the path; empty if there is no dot. -/
def goExt (s : String) : String :=
  match extScan [] s.data.reverse with
  | some e => ⟨e⟩
  | none => ""

/-- Model of Go `filepath.Dir`: everything up to and including the final
separator, cleaned (`"."` when there is no separator). -/
def goDir (s : String) : String :=
  goClean ⟨(s.data.reverse.dropWhile (fun c => c ≠ '/')).reverse⟩

/-- Model of Go `filepath.Base`: strip trailing separators, then keep the
part after the last separator. -/
def goBase (s : String) : String :=
  if s = "" then "."
  else
    let r := s.data.reverse.dropWhile (fun c => c = '/')
    if r = [] then "/"
    else ⟨(r.takeWhile (fun c => c ≠ '/')).reverse⟩

/-- Model of Go `filepath.Join` on two components: components joined by
`'/'` starting from the first non-empty one, then cleaned; all-empty input
gives `""`. -/
def goJoin (d n : String) : String :=
  if d = "" then (if n = "" then "" else goClean n)
  else goClean (d ++ "/" ++ n)

/-! ## The model filesystem and I/O trace -/

/-- One filesystem object: directory flag, size, the three stat timestamps
(nanosecond integers, as delivered by `internal/ostime.GetOsTime`), and an
opaque content identity used to track where file contents travel. -/
structure File where
  isDir : Bool
  size : Int
  createTime : Int
  modTime : Int
  accessTime : Int
  content : Nat
deriving DecidableEq, Repr

/-- The filesystem: an association list from paths to files. -/
abbrev FS := List (String × File)

/-- Path lookup (first match). -/
def lookupFS : FS → String → Option File
  | [], _ => none
  | (q, f) :: rest, p => if q = p then some f else lookupFS rest p

/-- Drop every entry at path `p`. -/
def eraseFS : FS → String → FS
  | [], _ => []
  | (a, f) :: rest, p => if a = p then eraseFS rest p else (a, f) :: eraseFS rest p

/-- Filesystem events; the trace records which system calls the engine
issued (most recent first). -/
inductive Ev where
  | statEv (p : String)
  | renameEv (src dst : String)
  | removeEv (p : String)
deriving DecidableEq, Repr

/-- Whether an event is a (read-only) stat. -/
def Ev.isStatEv : Ev → Bool
  | .statEv _ => true
  | _ => false

/-- Execution state: filesystem, I/O trace, and the process id used for
temp names (`os.Getpid`). -/
structure St where
  fs : FS
  trace : List Ev
  pid : Nat
deriving DecidableEq, Repr

/-- Append an event to the trace. -/
def St.log (st : St) (e : Ev) : St := { st with trace := e :: st.trace }

/-- Model of `os.Stat`: read-only lookup, logged. -/
def statSt (st : St) (p : String) : Option File × St :=
  (lookupFS st.fs p, st.log (.statEv p))

/-- Model of `os.Rename`: atomically moves `src` over `dst` (replacing any
occupant); fails exactly when `src` does not exist. -/
def renameSt (st : St) (src dst : String) : Bool × St :=
  let st' := st.log (.renameEv src dst)
  match lookupFS st.fs src with
  | none => (false, st')
  | some f => (true, { st' with fs := (dst, f) :: eraseFS (eraseFS st.fs src) dst })

/-- Model of `os.Remove`: fails exactly when the path does not exist. -/
def removeSt (st : St) (p : String) : Bool × St :=
  let st' := st.log (.removeEv p)
  match lookupFS st.fs p with
  | none => (false, st')
  | some _ => (true, { st' with fs := eraseFS st.fs p })

/-! ## The `renby` package data model -/

/-- `type SortMode int` with the four declared constants. -/
abbrev SortMode := Int

def SortByCreationTime : SortMode := 0
def SortByModificationTime : SortMode := 1
def SortByAccessTime : SortMode := 2
def SortBySize : SortMode := 3

/-- `Options` of the `renby` package. -/
structure Options where
  Pre : String
  Post : String
  Pattern : String
  Reverse : Bool
  FileMode : SortMode
  Init : Int
  ForceOverwrite : Bool
deriving DecidableEq, Repr

/-- `FileInfo` of the `renby` package (times as nanosecond integers). -/
structure FileInfo where
  Path : String
  Size : Int
  CreateTime : Int
  ModTime : Int
  AccessTime : Int
deriving DecidableEq, Repr

/-- The zero value `FileInfo{}` that `getFileInfo` returns for directories
and that `collectFileInfo` compares against. -/
def zeroFileInfo : FileInfo :=
  { Path := "", Size := 0, CreateTime := 0, ModTime := 0, AccessTime := 0 }

/-- Failure values of the engine.  Each constructor corresponds to one
`fmt.Errorf` site of the source; the carried strings are the varying parts
of the messages. -/
inductive Err where
  | invalidOptions (msg : String)
  | statFailed (path : String)
  | conflictsDetected (msg : String)
  | destIsSource (dst : String)
  | destExists (dst : String)
  | renameFailed (src dst : String)
  | srcToTempFailed (src temp : String)
  | missingTemp (src : String)
  | removeFailed (dst : String)
  | tempToDstFailed (temp dst : String)
  | tempSpaceExhausted
deriving DecidableEq, Repr

deriving instance DecidableEq for Except

/-- `Options.Validate`: `some` is the error message, `none` is success. -/
def Options.Validate (o : Options) : Option String :=
  if o.Pattern = "" then some "pattern cannot be empty"
  else if o.Init < 0 then some "init value must be non-negative"
  else none

/-- `getFileInfo`: stat the path; on failure propagate the error; for a
directory return the zero `FileInfo` (silent-skip sentinel); otherwise fill
the record from the stat data (`internal/ostime.GetOsTime` hands back the
three stat timestamps unchanged on linux). -/
def getFileInfo (path : String) (st : St) : Except (Err × St) (FileInfo × St) :=
  match statSt st path with
  | (none, st) => .error (.statFailed path, st)
  | (some f, st) =>
    if f.isDir then .ok (zeroFileInfo, st)
    else
      .ok ({ Path := path, Size := f.size, CreateTime := f.createTime,
             ModTime := f.modTime, AccessTime := f.accessTime }, st)

/-- `collectFileInfo`: gather `FileInfo` for all input files, dropping
entries equal to the zero `FileInfo` (directories). -/
def collectFileInfo : List String → St → Except (Err × St) (List FileInfo × St)
  | [], st => .ok ([], st)
  | f :: rest, st =>
    match getFileInfo f st with
    | .error e => .error e
    | .ok (fi, st) =>
      match collectFileInfo rest st with
      | .error e => .error e
      | .ok (fis, st) =>
        .ok (if fi ≠ zeroFileInfo then fi :: fis else fis, st)

/-- `compareFiles`: ascending comparison on the field selected by the mode,
with the path comparison of the `default` branch for any other mode value. -/
def compareFiles (a b : FileInfo) (mode : SortMode) : Bool :=
  if mode = SortByCreationTime then decide (a.CreateTime < b.CreateTime)
  else if mode = SortByModificationTime then decide (a.ModTime < b.ModTime)
  else if mode = SortByAccessTime then decide (a.AccessTime < b.AccessTime)
  else if mode = SortBySize then decide (a.Size < b.Size)
  else goStringLt a.Path b.Path

/-- One swap-down pass of Go `sort.insertionSort`: the element `x` entering
the sorted prefix (held in reverse order) swaps past predecessors while
`less x predecessor` holds. -/
def insDown (less : FileInfo → FileInfo → Bool) (x : FileInfo) : List FileInfo → List FileInfo
  | [] => [x]
  | y :: ys => if less x y then y :: insDown less x ys else x :: y :: ys

/-- Left-to-right driver of Go `sort.insertionSort`; `acc` is the already
sorted prefix in reverse order. -/
def goSortRun (less : FileInfo → FileInfo → Bool) : List FileInfo → List FileInfo → List FileInfo
  | acc, [] => acc.reverse
  | acc, x :: xs => goSortRun less (insDown less x acc) xs

/-- Go `sort.Slice` with comparator `less`, modelled by insertion sort.
`sort.Slice` runs pdqsort, which is documented as not guaranteed stable;
pdqsort hands slices of length at most 12 (its `maxInsertion` threshold)
to exactly this insertion sort, so the model is exact there.  On longer
slices pdqsort's partitioning may reorder equal-key elements, so this
model is a determinization: theorems about tie order are therefore only
stated for lists of length at most 12, and only the distinct-keys
consequence (where every correct `sort.Slice` run yields the unique
sorted permutation this function computes) is used beyond that. -/
def goSortSlice (less : FileInfo → FileInfo → Bool) (l : List FileInfo) : List FileInfo :=
  goSortRun less [] l

/-- `sortFiles`: sorts by `compareFiles`; when `reverse` is set the
comparison result is negated inside the comparator. -/
def sortFiles (files : List FileInfo) (mode : SortMode) (reverse : Bool) : List FileInfo :=
  goSortSlice
    (fun a b => if reverse then !(compareFiles a b mode) else compareFiles a b mode)
    files

/-- `generateNewName`: `prefix + padded number + suffix + original
extension`, resolved against the directory of the original file (note the
source takes the directory of the path with its extension stripped).
Width is the pattern length; an `'x'` anywhere in the pattern selects
hexadecimal.  (Go measures the pattern length in bytes; for the ASCII
patterns in play this equals the character count used here.) -/
def generateNewName (fi : FileInfo) (index : Int) (opts : Options) : String :=
  let ext := goExt fi.Path
  let basePath : String := ⟨fi.Path.data.take (fi.Path.data.length - ext.data.length)⟩
  let dir := goDir basePath
  let newName :=
    if goContains opts.Pattern "x" then
      opts.Pre ++ goFormatPad opts.Pattern.length 16 (index + opts.Init) ++ opts.Post ++ ext
    else
      opts.Pre ++ goFormatPad opts.Pattern.length 10 (index + opts.Init) ++ opts.Post ++ ext
  goJoin dir newName

/-! ## Plan construction (`RenameFiles` lines 288-297)

Go maps are modelled as insertion-ordered association lists: assignment to
an existing key updates it in place, a new key is appended, and iteration
follows that order.  (Go map iteration order is unspecified; theorems whose
content depends on the order are stated over arbitrary permutations.) -/

/-- `plan[k] = v`. -/
def planInsert (m : List (String × String)) (k v : String) : List (String × String) :=
  if m.any (fun e => e.1 == k) then m.map (fun e => if e.1 == k then (k, v) else e)
  else m ++ [(k, v)]

/-- `dstToSrc[k] = append(dstToSrc[k], v)`. -/
def d2sInsert (m : List (String × List String)) (k v : String) : List (String × List String) :=
  if m.any (fun e => e.1 == k) then
    m.map (fun e => if e.1 == k then (e.1, e.2 ++ [v]) else e)
  else m ++ [(k, [v])]

/-- `srcSet[k] = struct{}{}`. -/
def setInsert (s : List String) (k : String) : List String :=
  if s.contains k then s else s ++ [k]

/-- The plan-building loop over the sorted records (index `i` is the
ordinal). -/
def buildPlanAux (opts : Options) :
    List FileInfo → Nat →
    List (String × String) × List (String × List String) × List String →
    List (String × String) × List (String × List String) × List String
  | [], _, acc => acc
  | fi :: rest, i, (plan, d2s, srcs) =>
    let dst := generateNewName fi (Int.ofNat i) opts
    buildPlanAux opts rest (i + 1)
      (planInsert plan fi.Path dst, d2sInsert d2s dst fi.Path, setInsert srcs fi.Path)

/-- Build `plan`, `dstToSrc` and `srcSet` from the sorted records. -/
def buildPlan (fis : List FileInfo) (opts : Options) :
    List (String × String) × List (String × List String) × List String :=
  buildPlanAux opts fis 0 ([], [], [])

/-- Go `%v` of a `[]string`: elements joined by spaces inside brackets. -/
def fmtStrSlice (l : List String) : String :=
  "[" ++ String.intercalate " " l ++ "]"

/-- Go `%q` of a path, modelled as plain double-quoting (the paths the
engine handles contain no characters `%q` would escape). -/
def quoteStr (s : String) : String := "\"" ++ s ++ "\""

/-- Conflict detection (`RenameFiles` lines 299-312): a destination with
several sources is a conflict; a destination that is not itself a source
and already exists on disk is a conflict. -/
def detectConflicts (srcSet : List String) :
    List (String × List String) → St → List String × St
  | [], st => ([], st)
  | (dst, srcs) :: rest, st =>
    let m1 : List String :=
      if srcs.length > 1 then
        ["multiple sources " ++ fmtStrSlice srcs ++ " -> same destination " ++ quoteStr dst]
      else []
    let (m2, st) :=
      if srcSet.contains dst then (([] : List String), st)
      else
        match statSt st dst with
        | (some _, st) => (["destination already exists: " ++ quoteStr dst], st)
        | (none, st) => (([] : List String), st)
    let (ms, st) := detectConflicts srcSet rest st
    (m1 ++ m2 ++ ms, st)

/-- Direct (non-force) execution (`RenameFiles` lines 322-337): for each
`src ≠ dst`, fail if the destination currently exists (distinguishing the
destination-is-a-source case), otherwise rename. -/
def directLoop (srcSet : List String) :
    List (String × String) → St → Except (Err × St) St
  | [], st => .ok st
  | (src, dst) :: rest, st =>
    if src = dst then directLoop srcSet rest st
    else
      match statSt st dst with
      | (some _, st) =>
        if srcSet.contains dst then .error (.destIsSource dst, st)
        else .error (.destExists dst, st)
      | (none, st) =>
        match renameSt st src dst with
        | (false, st) => .error (.renameFailed src dst, st)
        | (true, st) => directLoop srcSet rest st

/-- The candidate temp name for counter value `c`:
`fmt.Sprintf("%s.renby.tmp.%d.%d%s", base, pid, c, ext)` joined into the
destination's directory. -/
def tempCandidate (dir base ext : String) (pid c : Nat) : String :=
  goJoin dir (base ++ ".renby.tmp." ++ decRepr pid ++ "." ++ decRepr c ++ ext)

/-- The temp-name generation loop (`RenameFiles` lines 354-361): stat the
candidate, break when it does not exist, otherwise retry with the
incremented counter.  The counter is incremented on every attempt, so the
returned next-counter value is one past the counter used in the returned
name.  The fuel only bounds the recursion; `stagePhase` supplies
`|fs| + 1`, which is proved sufficient, so the `none` case is unreachable
there. -/
def genTempLoop (dir base ext : String) : Nat → Nat → St → Option (String × Nat × St)
  | 0, _, _ => none
  | fuel + 1, c, st =>
    let temp := tempCandidate dir base ext st.pid c
    match statSt st temp with
    | (none, st) => some (temp, c + 1, st)
    | (some _, st) => genTempLoop dir base ext fuel (c + 1) st

/-- First pass of force mode (`RenameFiles` lines 343-366): rename every
`src ≠ dst` to a freshly generated temp name, accumulating the `src ↦ temp`
map and threading the shared counter. -/
def stagePhase :
    List (String × String) → Nat → List (String × String) → St →
    Except (Err × St) (List (String × String) × Nat × St)
  | [], c, temps, st => .ok (temps, c, st)
  | (src, dst) :: rest, c, temps, st =>
    if src = dst then stagePhase rest c temps st
    else
      let dir := goDir dst
      let ext := goExt dst
      let base := goTrimSuffix (goBase dst) ext
      match genTempLoop dir base ext (st.fs.length + 1) c st with
      | none => .error (.tempSpaceExhausted, st)
      | some (temp, c', st) =>
        match renameSt st src temp with
        | (false, st) => .error (.srcToTempFailed src temp, st)
        | (true, st) => stagePhase rest c' (temps ++ [(src, temp)]) st

/-- Lookup in the `src ↦ temp` map (`temps[src]`, with `none` standing for
Go's `""` miss). -/
def lookupAssocStr : List (String × String) → String → Option String
  | [], _ => none
  | (a, b) :: rest, k => if a = k then some b else lookupAssocStr rest k

/-- Second pass of force mode (`RenameFiles` lines 368-387): for every
`src ≠ dst`, remove any occupant of the destination and move the temp file
into place. -/
def commitPhase (temps : List (String × String)) :
    List (String × String) → St → Except (Err × St) St
  | [], st => .ok st
  | (src, dst) :: rest, st =>
    if src = dst then commitPhase temps rest st
    else
      match lookupAssocStr temps src with
      | none => .error (.missingTemp src, st)
      | some temp =>
        match statSt st dst with
        | (some _, st) =>
          match removeSt st dst with
          | (false, st) => .error (.removeFailed dst, st)
          | (true, st) =>
            match renameSt st temp dst with
            | (false, st) => .error (.tempToDstFailed temp dst, st)
            | (true, st) => commitPhase temps rest st
        | (none, st) =>
          match renameSt st temp dst with
          | (false, st) => .error (.tempToDstFailed temp dst, st)
          | (true, st) => commitPhase temps rest st

/-- The rendering the spec prescribes for the number inserted into a
generated name: the base-`b` digits of the (unsigned) value, left-padded
with `'0'` to the pattern width, never truncated. -/
def specZeropad (n w b : Nat) : String :=
  ⟨List.replicate (w - (natToBase b n).length) '0' ++ natToBase b n⟩

/-- `RenameFiles`: validate, collect, sort, plan, detect conflicts, then
commit either directly or via the two-phase force path.  On failure the
state at the failure point is returned alongside the error. -/
def RenameFiles (files : List String) (opts : Options) (st : St) : Except (Err × St) St :=
  match opts.Validate with
  | some msg => .error (.invalidOptions msg, st)
  | none =>
    match collectFileInfo files st with
    | .error e => .error e
    | .ok (fileInfos, st) =>
      if fileInfos.length = 0 then .ok st
      else
        let sorted := sortFiles fileInfos opts.FileMode opts.Reverse
        match buildPlan sorted opts with
        | (plan, dstToSrc, srcSet) =>
          match detectConflicts srcSet dstToSrc st with
          | (conflicts, st) =>
            if conflicts.length > 0 ∧ opts.ForceOverwrite = false then
              .error (.conflictsDetected (String.intercalate "; " conflicts), st)
            else if opts.ForceOverwrite = false then
              directLoop srcSet plan st
            else
              match stagePhase plan 0 [] st with
              | .error e => .error e
              | .ok (temps, _, st) => commitPhase temps plan st

/-! ## Concrete instances used by scenario theorems and witnesses -/

/-- A plain regular file of the given content identity and size. -/
def sampleFile (c : Nat) (sz : Int) : File :=
  { isDir := false, size := sz, createTime := 0, modTime := 0, accessTime := 0, content := c }

/-- Options of the spec's size-sort scenario: pattern `"000"`, sort by
size, initial index 1, no prefix/suffix, no force. -/
def sizeOpts : Options :=
  { Pre := "", Post := "", Pattern := "000", Reverse := false,
    FileMode := SortBySize, Init := 1, ForceOverwrite := false }

/-- Three files of sizes 100, 50 and 200 bytes. -/
def threeFilesFS : FS :=
  [("a.txt", sampleFile 1 100), ("b.txt", sampleFile 2 50), ("c.txt", sampleFile 3 200)]

/-- The record `getFileInfo` produces for `"b.txt"` in `threeFilesFS`. -/
def bRecord : FileInfo :=
  { Path := "b.txt", Size := 50, CreateTime := 0, ModTime := 0, AccessTime := 0 }

/-- A filesystem where the planned destination `"001.txt"` is already
occupied by a file outside the batch. -/
def occupiedFS : FS :=
  [("a.txt", sampleFile 1 100), ("001.txt", sampleFile 9 5)]

/-- Two equally-sized records (a tie for the size key). -/
def tieA : FileInfo :=
  { Path := "a", Size := 5, CreateTime := 0, ModTime := 0, AccessTime := 0 }

/-- Second record of the tie. -/
def tieB : FileInfo :=
  { Path := "b", Size := 5, CreateTime := 0, ModTime := 0, AccessTime := 0 }

/-- Sources of the force-mode counterexample plan. -/
def clobberFS : FS := [("s2", sampleFile 21 0), ("s1", sampleFile 11 0)]

/-- A force-mode plan whose first destination is itself shaped like a temp
name for pid 5; staging `"s1"` with the shared counter at 1 then produces
exactly that path as its temp name. -/
def clobberPlan : List (String × String) :=
  [("s2", "x.renby.tmp.5.1.txt"), ("s1", "x.txt")]

/-- Whether `collectFileInfo` keeps the entry at `p`: the path must exist
and not be a directory (characterization used to state C10). -/
def keepsPath (fs : FS) (p : String) : Bool :=
  match lookupFS fs p with
  | some f => !f.isDir
  | none => false

/-- The record `getFileInfo` produces for an existing path
(characterization used to state C10). -/
def modelInfo (fs : FS) (p : String) : FileInfo :=
  match lookupFS fs p with
  | some f =>
    { Path := p, Size := f.size, CreateTime := f.createTime,
      ModTime := f.modTime, AccessTime := f.accessTime }
  | none => zeroFileInfo

/-- The full result state of the C4 size-sort scenario. -/
def c4Result : St :=
  { fs := [("003.txt", sampleFile 3 200), ("002.txt", sampleFile 1 100),
           ("001.txt", sampleFile 2 50)],
    trace := [.renameEv "c.txt" "003.txt", .statEv "003.txt",
              .renameEv "a.txt" "002.txt", .statEv "002.txt",
              .renameEv "b.txt" "001.txt", .statEv "001.txt",
              .statEv "003.txt", .statEv "002.txt", .statEv "001.txt",
              .statEv "c.txt", .statEv "b.txt", .statEv "a.txt"],
    pid := 7 }

/-- `st'` is reachable from `st` by read-only (stat) steps: same
filesystem, same pid, and only stat events added to the trace. -/
def readOnlyFrom (st st' : St) : Prop :=
  st'.fs = st.fs ∧ st'.pid = st.pid ∧
  ∃ evs, st'.trace = evs ++ st.trace ∧ ∀ e ∈ evs, e.isStatEv = true

/-- Whether two records carry exactly the same value of the field the sort
mode selects (the path, for the `default` comparison branch); this is the
tie relation of the stability claims. -/
def sameKey (mode : SortMode) (a b : FileInfo) : Bool :=
  if mode = SortByCreationTime then a.CreateTime == b.CreateTime
  else if mode = SortByModificationTime then a.ModTime == b.ModTime
  else if mode = SortByAccessTime then a.AccessTime == b.AccessTime
  else if mode = SortBySize then a.Size == b.Size
  else a.Path == b.Path

/-- First source file of the duplicate-destination scenario. -/
def c2aFile : File := sampleFile 1 10

/-- Second source file of the duplicate-destination scenario. -/
def c2bFile : File := sampleFile 2 20

/-- Force-mode options whose `Post` ends in `/../x`: `filepath.Join` cleans
the `..` away, so the generated ordinal is erased from every destination
and all sources map to the single destination `"x"`. -/
def c2Opts : Options :=
  { Pre := "", Post := "/../x", Pattern := "0", Reverse := false,
    FileMode := SortBySize, Init := 5, ForceOverwrite := true }

/-- Two regular files `"a"` and `"b"` for the duplicate-destination run. -/
def c2FS : FS := [("a", c2aFile), ("b", c2bFile)]

/-- Two files about to exchange names through the two-phase commit. -/
def swapFS : FS := [("a", sampleFile 1 0), ("b", sampleFile 2 0)]

/-- The name-exchange (rename cycle) plan. -/
def swapPlan : List (String × String) := [("a", "b"), ("b", "a")]

/-- The `src ↦ temp` map the staging pass produces for `swapPlan` with
pid 7 and the shared counter starting at 0. -/
def swapTemps : List (String × String) :=
  [("a", "b.renby.tmp.7.0"), ("b", "a.renby.tmp.7.1")]

/-- The state after staging `swapPlan` from `swapFS` with pid 7. -/
def swapStagedSt : St :=
  { fs := [("a.renby.tmp.7.1", sampleFile 2 0), ("b.renby.tmp.7.0", sampleFile 1 0)],
    trace := [.renameEv "b" "a.renby.tmp.7.1", .statEv "a.renby.tmp.7.1",
              .renameEv "a" "b.renby.tmp.7.0", .statEv "b.renby.tmp.7.0"],
    pid := 7 }

/-! ## Lemmas about number rendering -/

theorem digitVal_digitChar {d : Nat} (h : d < 16) : digitVal (digitChar d) = d := by
  interval_cases d <;> decide

theorem parseBaseNum_append_digit (b : Nat) (xs : List Char) (c : Char) :
    parseBaseNum b (xs ++ [c]) = parseBaseNum b xs * b + digitVal c := by
  simp [parseBaseNum, List.foldl_append]

theorem parse_natToBaseAux (b : Nat) (hb2 : 2 ≤ b) (hb16 : b ≤ 16) :
    ∀ fuel n, n < fuel → parseBaseNum b (natToBaseAux b fuel n) = n := by
  intro fuel
  induction fuel with
  | zero => intro n h; omega
  | succ f ih =>
    intro n h
    by_cases hn : n < b
    · have hv := digitVal_digitChar (lt_of_lt_of_le hn hb16)
      simp [natToBaseAux, hn, parseBaseNum, hv]
    · have hdiv : n / b < n := Nat.div_lt_self (by omega) (by omega)
      have hf : n / b < f := by omega
      have hmod := digitVal_digitChar (lt_of_lt_of_le (Nat.mod_lt n (by omega)) hb16)
      simp [natToBaseAux, hn, parseBaseNum_append_digit, ih _ hf, hmod]
      rw [Nat.mul_comm]
      exact Nat.div_add_mod n b

theorem parse_natToBase (b n : Nat) (hb2 : 2 ≤ b) (hb16 : b ≤ 16) :
    parseBaseNum b (natToBase b n) = n :=
  parse_natToBaseAux b hb2 hb16 (n + 1) n (Nat.lt_succ_self n)

theorem parse_replicate_zero (b : Nat) (k : Nat) (ds : List Char) :
    parseBaseNum b (List.replicate k '0' ++ ds) = parseBaseNum b ds := by
  induction k with
  | zero => simp
  | succ k ih =>
    have h0 : digitVal '0' = 0 := by decide
    simpa [List.replicate_succ, parseBaseNum, h0] using ih

/-- Distinct non-negative values render to distinct zero-padded strings. -/
theorem goFormatPad_inj (w b : Nat) (hb2 : 2 ≤ b) (hb16 : b ≤ 16) (m n : Int)
    (hm : 0 ≤ m) (hn : 0 ≤ n) (h : goFormatPad w b m = goFormatPad w b n) : m = n := by
  unfold goFormatPad at h
  rw [if_neg (not_lt.mpr hm), if_neg (not_lt.mpr hn)] at h
  have hdata : padZeros w (natToBase b m.toNat) = padZeros w (natToBase b n.toNat) :=
    congrArg String.data h
  have hp := congrArg (parseBaseNum b) hdata
  unfold padZeros at hp
  rw [parse_replicate_zero, parse_replicate_zero,
    parse_natToBase _ _ hb2 hb16, parse_natToBase _ _ hb2 hb16] at hp
  omega

/-! ## C8: injectivity of the rendered numbers -/

/-- C8: name generation is injective over the ordinals actually used: with
`w` the pattern width and `base` 16 or 10 according to the pattern, for any
`n ≤ base ^ w` files, two distinct ordinals `i, j < n` never render (via
the `%0*d` / `%0*x` formatting of `generateNewName`, at the validated
non-negative initial index) to the same number string. -/
theorem generated_number_injective (opts : Options) (n i j : Nat)
    (hInit : 0 ≤ opts.Init) (hi : i < n) (hj : j < n)
    (hn : n ≤ (if goContains opts.Pattern "x" then 16 else 10) ^ opts.Pattern.length)
    (hne : i ≠ j) :
    goFormatPad opts.Pattern.length (if goContains opts.Pattern "x" then 16 else 10)
        ((i : Int) + opts.Init) ≠
      goFormatPad opts.Pattern.length (if goContains opts.Pattern "x" then 16 else 10)
        ((j : Int) + opts.Init) := by
  intro h
  have hb2 : 2 ≤ (if goContains opts.Pattern "x" then 16 else 10) := by
    cases goContains opts.Pattern "x" <;> simp
  have hb16 : (if goContains opts.Pattern "x" then 16 else 10) ≤ 16 := by
    cases goContains opts.Pattern "x" <;> simp
  have := goFormatPad_inj _ _ hb2 hb16 _ _ (by omega) (by omega) h
  omega

/-- Witness for C8 at the scenario options: ordinals 0 and 1 of a 3-file
batch render differently. -/
theorem generated_number_injective_witness :
    goFormatPad sizeOpts.Pattern.length
        (if goContains sizeOpts.Pattern "x" then 16 else 10) ((0 : Int) + sizeOpts.Init) ≠
      goFormatPad sizeOpts.Pattern.length
        (if goContains sizeOpts.Pattern "x" then 16 else 10) ((1 : Int) + sizeOpts.Init) :=
  generated_number_injective sizeOpts 3 0 1 (by decide) (by decide) (by decide)
    (by decide) (by decide)

/-! ## C4: the generated-name formula and the size-sort scenario -/

/-- C4: for a non-negative effective index (the validated engine only uses
`i + initialIndex ≥ 0`), `generateNewName` produces exactly
`prefix + zeropad(i + initialIndex, width, base) + suffix + extension`
resolved in the original file's directory, where `width` is the pattern
length and `base` is 16 iff the pattern contains `'x'`; the zero-padded
field always retains every significant digit (it grows to
`max width digits` rather than truncating); and the spec's scenario holds:
three files of sizes 100, 50, 200 bytes with pattern `"000"`, size sort,
initial index 1 and no prefix/suffix are renamed to `001.txt` (the 50-byte
file), `002.txt` (the 100-byte file), `003.txt` (the 200-byte file). -/
theorem generateNewName_formula_and_scenario :
    (∀ (fi : FileInfo) (i : Int) (opts : Options), 0 ≤ i + opts.Init →
      generateNewName fi i opts =
        goJoin (goDir ⟨fi.Path.data.take (fi.Path.data.length - (goExt fi.Path).data.length)⟩)
          (opts.Pre ++
            specZeropad (i + opts.Init).toNat opts.Pattern.length
              (if goContains opts.Pattern "x" then 16 else 10) ++
            opts.Post ++ goExt fi.Path))
    ∧ (∀ n w b : Nat,
        (specZeropad n w b).data =
          List.replicate (w - (natToBase b n).length) '0' ++ natToBase b n ∧
        (specZeropad n w b).data.length = max w (natToBase b n).length)
    ∧ RenameFiles ["a.txt", "b.txt", "c.txt"] sizeOpts ⟨threeFilesFS, [], 7⟩ = .ok c4Result
    ∧ lookupFS c4Result.fs "001.txt" = some (sampleFile 2 50)
    ∧ lookupFS c4Result.fs "002.txt" = some (sampleFile 1 100)
    ∧ lookupFS c4Result.fs "003.txt" = some (sampleFile 3 200) := by
  refine ⟨?_, ?_, by decide, by decide, by decide, by decide⟩
  · intro fi i opts h
    cases hgc : goContains opts.Pattern "x" <;>
      simp [generateNewName, hgc, goFormatPad, not_lt.mpr h, specZeropad, padZeros]
  · intro n w b
    refine ⟨rfl, ?_⟩
    simp [specZeropad]
    omega

/-- Witness for C4's formula part: the 50-byte record at ordinal 0 maps to
`001.txt`. -/
theorem generateNewName_formula_witness :
    generateNewName bRecord 0 sizeOpts = "001.txt" := by
  have h := generateNewName_formula_and_scenario.1 bRecord 0 sizeOpts (by decide)
  rw [h]; decide

/-! ## C5: empty input -/

/-- Counterexample to C5 as stated: with an `Options` value that fails
validation (empty pattern), `RenameFiles` on an empty input list returns a
configuration error, not success — validation runs before the empty-input
check. -/
theorem renameFiles_empty_invalid_opts_fails :
    RenameFiles [] { sizeOpts with Pattern := "" } ⟨[], [], 7⟩ =
      .error (.invalidOptions "pattern cannot be empty", ⟨[], [], 7⟩) := by
  decide

/-- C5 amended: for every `Options` that passes validation, `RenameFiles`
with an empty input list succeeds and performs no filesystem access at
all (the state, including the I/O trace, is returned unchanged). -/
theorem renameFiles_empty_noop (opts : Options) (st : St)
    (hv : opts.Validate = none) :
    RenameFiles [] opts st = .ok st := by
  simp [RenameFiles, hv, collectFileInfo]

/-- Witness for the amended C5 at the scenario options. -/
theorem renameFiles_empty_noop_witness :
    RenameFiles [] sizeOpts ⟨[], [], 7⟩ = .ok ⟨[], [], 7⟩ :=
  renameFiles_empty_noop sizeOpts ⟨[], [], 7⟩ (by decide)

/-! ## C6: configuration errors precede all I/O -/

/-- C6: an empty pattern or a negative initial index makes `RenameFiles`
fail with the configuration error before any I/O: the returned state is
exactly the input state, so no stat, rename or remove event was issued. -/
theorem renameFiles_invalid_config (files : List String) (opts : Options) (st : St)
    (h : opts.Pattern = "" ∨ opts.Init < 0) :
    ∃ m, RenameFiles files opts st = .error (.invalidOptions m, st) := by
  by_cases hp : opts.Pattern = ""
  · exact ⟨"pattern cannot be empty", by simp [RenameFiles, Options.Validate, hp]⟩
  · have hi : opts.Init < 0 := h.resolve_left hp
    exact ⟨"init value must be non-negative",
      by simp [RenameFiles, Options.Validate, hp, hi]⟩

/-- Witness for C6: a negative initial index is rejected with the state
untouched. -/
theorem renameFiles_invalid_config_witness :
    ∃ m, RenameFiles ["a.txt"] { sizeOpts with Init := -1 } ⟨threeFilesFS, [], 7⟩ =
      .error (.invalidOptions m, ⟨threeFilesFS, [], 7⟩) :=
  renameFiles_invalid_config ["a.txt"] { sizeOpts with Init := -1 } ⟨threeFilesFS, [], 7⟩
    (Or.inr (by decide))

/-! ## C10: the directory sentinel never drops a regular file -/

/-- C10: a stat-able non-directory at a non-empty path always yields a
record whose `Path` is that path, hence never the zero-`FileInfo` sentinel;
consequently `collectFileInfo` keeps exactly the non-directory entries (in
order) and drops exactly the directories. -/
theorem collect_keeps_regular_files (fs : FS) (tr : List Ev) (pid : Nat) :
    (∀ (p : String) (f : File) (st : St), lookupFS st.fs p = some f → f.isDir = false →
      p ≠ "" →
      getFileInfo p st =
        .ok ({ Path := p, Size := f.size, CreateTime := f.createTime,
               ModTime := f.modTime, AccessTime := f.accessTime }, st.log (.statEv p)) ∧
      ({ Path := p, Size := f.size, CreateTime := f.createTime,
         ModTime := f.modTime, AccessTime := f.accessTime } : FileInfo) ≠ zeroFileInfo)
    ∧ (∀ files : List String,
        (∀ p ∈ files, p ≠ "" ∧ (lookupFS fs p).isSome = true) →
        ∃ tr', collectFileInfo files ⟨fs, tr, pid⟩ =
          .ok ((files.filter (keepsPath fs)).map (modelInfo fs), ⟨fs, tr', pid⟩)) := by
  constructor
  · intro p f st hlook hdir hp
    constructor
    · simp [getFileInfo, statSt, hlook, hdir]
    · intro hz
      exact hp (congrArg FileInfo.Path hz)
  · intro files
    induction files generalizing tr with
    | nil => intro _; exact ⟨tr, rfl⟩
    | cons p rest ih =>
      intro hall
      obtain ⟨hp, hsome⟩ := hall p (by simp)
      obtain ⟨f, hf⟩ := Option.isSome_iff_exists.mp hsome
      obtain ⟨tr', htr'⟩ := ih (.statEv p :: tr) (fun q hq => hall q (by simp [hq]))
      cases hdir : f.isDir
      · refine ⟨tr', ?_⟩
        have hzero :
            ({ Path := p, Size := f.size, CreateTime := f.createTime,
               ModTime := f.modTime, AccessTime := f.accessTime } : FileInfo) ≠ zeroFileInfo :=
          fun hz => hp (congrArg FileInfo.Path hz)
        simp [collectFileInfo, getFileInfo, statSt, hf, hdir, St.log, htr', hzero,
          keepsPath, modelInfo]
      · refine ⟨tr', ?_⟩
        simp [collectFileInfo, getFileInfo, statSt, hf, hdir, St.log, htr',
          keepsPath, modelInfo]

/-- Witness for C10: in the three-file filesystem, `getFileInfo` keeps the
50-byte regular file and `collectFileInfo` keeps all three entries. -/
theorem collect_keeps_regular_files_witness :
    getFileInfo "b.txt" ⟨threeFilesFS, [], 7⟩ =
        .ok (bRecord, (⟨threeFilesFS, [], 7⟩ : St).log (.statEv "b.txt")) ∧
    bRecord ≠ zeroFileInfo ∧
    ∃ tr', collectFileInfo ["a.txt", "b.txt", "c.txt"] ⟨threeFilesFS, [], 7⟩ =
      .ok ((["a.txt", "b.txt", "c.txt"].filter (keepsPath threeFilesFS)).map
        (modelInfo threeFilesFS), ⟨threeFilesFS, tr', 7⟩) := by
  obtain ⟨h1, h2⟩ := collect_keeps_regular_files threeFilesFS [] 7
  have hb := h1 "b.txt" (sampleFile 2 50) ⟨threeFilesFS, [], 7⟩ (by decide) rfl (by decide)
  exact ⟨hb.1, hb.2, h2 ["a.txt", "b.txt", "c.txt"] (by decide)⟩


/-! ## Unfolding equations for the stateful operations -/

theorem getFileInfo_none {p : String} {st : St} (hl : lookupFS st.fs p = none) :
    getFileInfo p st = .error (.statFailed p, st.log (.statEv p)) := by
  simp [getFileInfo, statSt, hl]

theorem getFileInfo_dir {p : String} {st : St} {f : File}
    (hl : lookupFS st.fs p = some f) (hd : f.isDir = true) :
    getFileInfo p st = .ok (zeroFileInfo, st.log (.statEv p)) := by
  simp [getFileInfo, statSt, hl, hd]

theorem getFileInfo_file {p : String} {st : St} {f : File}
    (hl : lookupFS st.fs p = some f) (hd : f.isDir = false) :
    getFileInfo p st =
      .ok ({ Path := p, Size := f.size, CreateTime := f.createTime,
             ModTime := f.modTime, AccessTime := f.accessTime }, st.log (.statEv p)) := by
  simp [getFileInfo, statSt, hl, hd]

/-! ## Read-only state evolution lemmas (towards C1) -/

theorem readOnlyFrom_refl (st : St) : readOnlyFrom st st :=
  ⟨rfl, rfl, [], rfl, by simp⟩

theorem readOnlyFrom_trans {a b c : St} (h1 : readOnlyFrom a b) (h2 : readOnlyFrom b c) :
    readOnlyFrom a c := by
  obtain ⟨f1, p1, e1, ht1, hs1⟩ := h1
  obtain ⟨f2, p2, e2, ht2, hs2⟩ := h2
  refine ⟨f2.trans f1, p2.trans p1, e2 ++ e1, ?_, ?_⟩
  · rw [ht2, ht1, List.append_assoc]
  · intro e he
    rcases List.mem_append.mp he with h | h
    · exact hs2 e h
    · exact hs1 e h

theorem readOnlyFrom_log_stat (st : St) (p : String) :
    readOnlyFrom st (st.log (.statEv p)) :=
  ⟨rfl, rfl, [.statEv p], rfl, by simp [Ev.isStatEv]⟩

theorem getFileInfo_ok_readOnly {p : String} {st st' : St} {fi : FileInfo}
    (h : getFileInfo p st = .ok (fi, st')) : readOnlyFrom st st' := by
  cases hl : lookupFS st.fs p with
  | none => rw [getFileInfo_none hl] at h; exact absurd h (by simp)
  | some f =>
    cases hd : f.isDir
    · rw [getFileInfo_file hl hd] at h
      simp at h
      exact h.2 ▸ readOnlyFrom_log_stat st p
    · rw [getFileInfo_dir hl hd] at h
      simp at h
      exact h.2 ▸ readOnlyFrom_log_stat st p

theorem collect_ok_readOnly :
    ∀ {files : List String} {st st' : St} {l : List FileInfo},
      collectFileInfo files st = .ok (l, st') → readOnlyFrom st st' := by
  intro files
  induction files with
  | nil =>
    intro st st' l h
    simp [collectFileInfo] at h
    rw [← h.2]; exact readOnlyFrom_refl st
  | cons p rest ih =>
    intro st st' l h
    unfold collectFileInfo at h
    cases hg : getFileInfo p st with
    | error e => simp only [hg] at h; exact absurd h (by simp)
    | ok pr =>
      obtain ⟨fi, st₁⟩ := pr
      simp only [hg] at h
      cases hc : collectFileInfo rest st₁ with
      | error e => simp only [hc] at h; exact absurd h (by simp)
      | ok pr₂ =>
        obtain ⟨fis, st₂⟩ := pr₂
        simp only [hc, Except.ok.injEq, Prod.mk.injEq] at h
        exact h.2 ▸ readOnlyFrom_trans (getFileInfo_ok_readOnly hg) (ih hc)

theorem collect_error_statFailed :
    ∀ {files : List String} {st st' : St} {e : Err},
      collectFileInfo files st = .error (e, st') → ∃ p, e = .statFailed p := by
  intro files
  induction files with
  | nil => intro st st' e h; exact absurd h (by simp [collectFileInfo])
  | cons p rest ih =>
    intro st st' e h
    unfold collectFileInfo at h
    cases hg : getFileInfo p st with
    | error pr =>
      obtain ⟨e₁, st₁⟩ := pr
      simp only [hg, Except.error.injEq, Prod.mk.injEq] at h
      cases hl : lookupFS st.fs p with
      | none =>
        rw [getFileInfo_none hl] at hg
        simp at hg
        exact ⟨p, by rw [← h.1, ← hg.1]⟩
      | some f =>
        cases hd : f.isDir
        · rw [getFileInfo_file hl hd] at hg; exact absurd hg (by simp)
        · rw [getFileInfo_dir hl hd] at hg; exact absurd hg (by simp)
    | ok pr =>
      obtain ⟨fi, st₁⟩ := pr
      simp only [hg] at h
      cases hc : collectFileInfo rest st₁ with
      | error pr₂ =>
        obtain ⟨e₂, st₂⟩ := pr₂
        simp only [hc, Except.error.injEq, Prod.mk.injEq] at h
        exact h.1 ▸ ih hc
      | ok pr₂ =>
        obtain ⟨fis, st₂⟩ := pr₂
        simp only [hc] at h
        exact absurd h (by simp)

theorem detectConflicts_readOnly :
    ∀ {d2s : List (String × List String)} {srcSet : List String} {st : St}
      {cs : List String} {st' : St},
      detectConflicts srcSet d2s st = (cs, st') → readOnlyFrom st st' := by
  intro d2s
  induction d2s with
  | nil =>
    intro ss st cs st' h
    simp [detectConflicts] at h
    rw [← h.2]; exact readOnlyFrom_refl st
  | cons hd rest ih =>
    intro ss st cs st' h
    obtain ⟨dst, srcs⟩ := hd
    unfold detectConflicts at h
    cases hmem : ss.contains dst with
    | true =>
      simp only [hmem, if_true] at h
      rcases hrec : detectConflicts ss rest st with ⟨ms, st₂⟩
      simp only [hrec, Prod.mk.injEq] at h
      exact h.2 ▸ ih hrec
    | false =>
      simp only [hmem, Bool.false_eq_true, if_false, statSt] at h
      cases hl : lookupFS st.fs dst <;> simp only [hl] at h <;>
        · rcases hrec : detectConflicts ss rest (st.log (.statEv dst)) with ⟨ms, st₂⟩
          simp only [hrec, Prod.mk.injEq] at h
          exact h.2 ▸ readOnlyFrom_trans (readOnlyFrom_log_stat st dst) (ih hrec)

theorem directLoop_error_not_conflicts :
    ∀ {plan : List (String × String)} {srcSet : List String} {st : St}
      {e : Err} {st' : St},
      directLoop srcSet plan st = .error (e, st') → ∀ m, e ≠ .conflictsDetected m := by
  intro plan
  induction plan with
  | nil => intro ss st e st' h; exact absurd h (by simp [directLoop])
  | cons hd rest ih =>
    intro ss st e st' h
    obtain ⟨src, dst⟩ := hd
    unfold directLoop at h
    by_cases hsd : src = dst
    · rw [if_pos hsd] at h; exact ih h
    · rw [if_neg hsd] at h
      simp only [statSt] at h
      cases hl : lookupFS st.fs dst <;> simp only [hl] at h
      · rcases hr : renameSt (st.log (.statEv dst)) src dst with ⟨b, st₂⟩
        simp only [hr] at h
        cases b
        · simp only [Except.error.injEq, Prod.mk.injEq] at h
          intro m hm
          rw [hm] at h
          exact absurd h.1 (by simp)
        · exact ih h
      · cases hc : ss.contains dst <;>
          simp only [hc, Bool.false_eq_true, if_true, if_false,
            Except.error.injEq, Prod.mk.injEq] at h <;>
          · intro m hm
            rw [hm] at h
            exact absurd h.1 (by simp)

/-! ## C1: collision failure happens before any mutation -/

/-- C1: in non-force mode, whenever `RenameFiles` fails with the
collision-detection error (several sources sharing a destination, or a
destination occupied on disk by a file that is not a batch source), the
filesystem in the returned failure state is exactly the input filesystem
and the I/O trace contains nothing but stats — no file was renamed or
removed before the failure. -/
theorem renameFiles_conflict_no_mutation (files : List String) (opts : Options)
    (fs : FS) (pid : Nat) (m : String) (st' : St)
    (hforce : opts.ForceOverwrite = false)
    (h : RenameFiles files opts ⟨fs, [], pid⟩ = .error (.conflictsDetected m, st')) :
    st'.fs = fs ∧ ∀ e ∈ st'.trace, e.isStatEv = true := by
  unfold RenameFiles at h
  cases hv : opts.Validate with
  | some msg => simp only [hv] at h; exact absurd h (by simp)
  | none =>
    simp only [hv] at h
    cases hc : collectFileInfo files ⟨fs, [], pid⟩ with
    | error pr =>
      obtain ⟨e, st₂⟩ := pr
      simp only [hc, Except.error.injEq, Prod.mk.injEq] at h
      obtain ⟨p, rfl⟩ := collect_error_statFailed hc
      exact absurd h.1 (by simp)
    | ok pr =>
      obtain ⟨fis, st₁⟩ := pr
      simp only [hc] at h
      by_cases hlen : fis.length = 0
      · rw [if_pos hlen] at h; exact absurd h (by simp)
      · rw [if_neg hlen] at h
        rcases hbp : buildPlan (sortFiles fis opts.FileMode opts.Reverse) opts
          with ⟨plan, d2s, ss⟩
        simp only [hbp] at h
        rcases hdc : detectConflicts ss d2s st₁ with ⟨cs, st₂⟩
        simp only [hdc, hforce] at h
        by_cases hcs : cs.length > 0
        · rw [if_pos ⟨hcs, trivial⟩] at h
          simp only [Except.error.injEq, Prod.mk.injEq] at h
          have hro : readOnlyFrom ⟨fs, [], pid⟩ st₂ :=
            readOnlyFrom_trans (collect_ok_readOnly hc) (detectConflicts_readOnly hdc)
          obtain ⟨hfs, _, evs, htr, hstat⟩ := hro
          rw [← h.2]
          refine ⟨hfs, ?_⟩
          intro e he
          rw [htr] at he
          simp only [List.append_nil] at he
          exact hstat e he
        · rw [if_neg (fun hand => hcs hand.1)] at h
          rw [if_pos trivial] at h
          exact absurd rfl (directLoop_error_not_conflicts h m)

/-- Witness for C1: one source whose planned destination `001.txt` is
already occupied by a file outside the batch; the failure state carries
the untouched filesystem and a stat-only trace. -/
theorem renameFiles_conflict_no_mutation_witness :
    sizeOpts.ForceOverwrite = false ∧
    RenameFiles ["a.txt"] sizeOpts ⟨occupiedFS, [], 7⟩ =
      .error (.conflictsDetected ("destination already exists: " ++ quoteStr "001.txt"),
        ⟨occupiedFS, [.statEv "001.txt", .statEv "a.txt"], 7⟩) ∧
    (⟨occupiedFS, [.statEv "001.txt", .statEv "a.txt"], 7⟩ : St).fs = occupiedFS ∧
    ∀ e ∈ (⟨occupiedFS, [.statEv "001.txt", .statEv "a.txt"], 7⟩ : St).trace,
      e.isStatEv = true :=
  ⟨rfl, by decide,
    renameFiles_conflict_no_mutation ["a.txt"] sizeOpts occupiedFS 7
      ("destination already exists: " ++ quoteStr "001.txt")
      ⟨occupiedFS, [.statEv "001.txt", .statEv "a.txt"], 7⟩ rfl (by decide)⟩

/-! ## Order lemmas for the byte-wise string comparison -/

theorem listLtChars_irrefl : ∀ l : List Char, listLtChars l l = false := by
  intro l
  induction l with
  | nil => rfl
  | cons c cs ih =>
    unfold listLtChars
    rw [if_neg (lt_irrefl c), if_neg (lt_irrefl c)]
    exact ih

theorem listLtChars_asymm :
    ∀ a b : List Char, listLtChars a b = true → listLtChars b a = false := by
  intro a
  induction a with
  | nil =>
    intro b h
    cases b with
    | nil => exact absurd h (by simp [listLtChars])
    | cons y ys => rfl
  | cons x xs ih =>
    intro b h
    cases b with
    | nil => exact absurd h (by simp [listLtChars])
    | cons y ys =>
      unfold listLtChars at h ⊢
      rcases lt_trichotomy x y with hxy | hxy | hxy
      · rw [if_neg (lt_asymm hxy), if_pos hxy]
      · subst hxy
        rw [if_neg (lt_irrefl x), if_neg (lt_irrefl x)] at h ⊢
        exact ih ys h
      · rw [if_neg (lt_asymm hxy), if_pos hxy] at h
        exact absurd h (by simp)

theorem listLtChars_trans :
    ∀ a b c : List Char, listLtChars a b = true → listLtChars b c = true →
      listLtChars a c = true := by
  intro a
  induction a with
  | nil =>
    intro b c hab hbc
    cases c with
    | nil =>
      cases b with
      | nil => exact absurd hab (by simp [listLtChars])
      | cons y ys => exact absurd hbc (by simp [listLtChars])
    | cons z zs => rfl
  | cons x xs ih =>
    intro b c hab hbc
    cases b with
    | nil => exact absurd hab (by simp [listLtChars])
    | cons y ys =>
      cases c with
      | nil => exact absurd hbc (by simp [listLtChars])
      | cons z zs =>
        unfold listLtChars at hab hbc ⊢
        rcases lt_trichotomy x y with hxy | hxy | hxy
        · rcases lt_trichotomy y z with hyz | hyz | hyz
          · rw [if_pos (lt_trans hxy hyz)]
          · subst hyz; rw [if_pos hxy]
          · rw [if_neg (lt_asymm hyz), if_pos hyz] at hbc
            exact absurd hbc (by simp)
        · subst hxy
          rw [if_neg (lt_irrefl x), if_neg (lt_irrefl x)] at hab
          rcases lt_trichotomy x z with hxz | hxz | hxz
          · rw [if_pos hxz]
          · subst hxz
            rw [if_neg (lt_irrefl x), if_neg (lt_irrefl x)] at hbc ⊢
            exact ih ys zs hab hbc
          · rw [if_neg (lt_asymm hxz), if_pos hxz] at hbc
            exact absurd hbc (by simp)
        · rw [if_neg (lt_asymm hxy), if_pos hxy] at hab
          exact absurd hab (by simp)

theorem listLtChars_eq_of_not :
    ∀ a b : List Char, listLtChars a b = false → listLtChars b a = false → a = b := by
  intro a
  induction a with
  | nil =>
    intro b hab hba
    cases b with
    | nil => rfl
    | cons y ys => exact absurd hab (by simp [listLtChars])
  | cons x xs ih =>
    intro b hab hba
    cases b with
    | nil => exact absurd hba (by simp [listLtChars])
    | cons y ys =>
      unfold listLtChars at hab hba
      rcases lt_trichotomy x y with hxy | hxy | hxy
      · rw [if_pos hxy] at hab; exact absurd hab (by simp)
      · subst hxy
        rw [if_neg (lt_irrefl x), if_neg (lt_irrefl x)] at hab hba
        rw [ih ys hab hba]
      · rw [if_pos hxy] at hba; exact absurd hba (by simp)

/-! ## Order lemmas for `compareFiles` -/

theorem compareFiles_asymm {a b : FileInfo} {mode : SortMode}
    (h : compareFiles a b mode = true) : compareFiles b a mode = false := by
  unfold compareFiles goStringLt at h ⊢
  split_ifs at h ⊢ <;> try simp only [decide_eq_true_eq, decide_eq_false_iff_not] at h ⊢
  · omega
  · omega
  · omega
  · omega
  · exact listLtChars_asymm _ _ h

theorem compareFiles_trans {a b c : FileInfo} {mode : SortMode}
    (h1 : compareFiles a b mode = true) (h2 : compareFiles b c mode = true) :
    compareFiles a c mode = true := by
  unfold compareFiles goStringLt at h1 h2 ⊢
  split_ifs at h1 h2 ⊢ <;> try simp only [decide_eq_true_eq] at h1 h2 ⊢
  · omega
  · omega
  · omega
  · omega
  · exact listLtChars_trans _ _ _ h1 h2

theorem compareFiles_sameKey_of_not {a b : FileInfo} {mode : SortMode}
    (h1 : compareFiles a b mode = false) (h2 : compareFiles b a mode = false) :
    sameKey mode a b = true := by
  unfold compareFiles at h1 h2
  unfold sameKey
  split_ifs at h1 h2 ⊢ <;>
    simp only [decide_eq_false_iff_not, not_lt, beq_iff_eq] at h1 h2 ⊢
  · omega
  · omega
  · omega
  · omega
  · exact congrArg String.mk (listLtChars_eq_of_not _ _ h1 h2)

theorem compareFiles_conn {a b : FileInfo} {mode : SortMode}
    (h : sameKey mode a b = false) :
    compareFiles a b mode = true ∨ compareFiles b a mode = true := by
  by_cases h1 : compareFiles a b mode = true
  · exact Or.inl h1
  · by_cases h2 : compareFiles b a mode = true
    · exact Or.inr h2
    · rw [Bool.not_eq_true] at h1 h2
      rw [compareFiles_sameKey_of_not h1 h2] at h
      exact absurd h (by simp)

theorem compareFiles_false_of_sameKey {x a b : FileInfo} {mode : SortMode}
    (h1 : sameKey mode x a = true) (h2 : sameKey mode x b = true) :
    compareFiles a b mode = false := by
  unfold sameKey at h1 h2
  unfold compareFiles
  split_ifs at h1 h2 ⊢ <;>
    simp only [beq_iff_eq, decide_eq_false_iff_not, not_lt] at h1 h2 ⊢
  · omega
  · omega
  · omega
  · omega
  · have : a.Path = b.Path := h1 ▸ h2
    rw [goStringLt, this, listLtChars_irrefl]

/-! ## Permutation and stability of the modelled insertion sort -/

theorem insDown_perm (less : FileInfo → FileInfo → Bool) (x : FileInfo) :
    ∀ acc : List FileInfo, (insDown less x acc).Perm (x :: acc) := by
  intro acc
  induction acc with
  | nil => simp [insDown]
  | cons y ys ih =>
    unfold insDown
    by_cases h : less x y = true
    · rw [if_pos h]
      exact (ih.cons y).trans (List.Perm.swap x y ys)
    · rw [if_neg h]

theorem goSortRun_perm (less : FileInfo → FileInfo → Bool) :
    ∀ (xs acc : List FileInfo), (goSortRun less acc xs).Perm (acc.reverse ++ xs) := by
  intro xs
  induction xs with
  | nil => intro acc; simp [goSortRun]
  | cons x xs ih =>
    intro acc
    unfold goSortRun
    refine (ih (insDown less x acc)).trans ?_
    refine ((List.reverse_perm _).append_right xs).trans ?_
    refine ((insDown_perm less x acc).append_right xs).trans ?_
    refine List.Perm.trans ?_ List.perm_middle.symm
    exact List.Perm.cons x (((List.reverse_perm acc).symm).append_right xs)

theorem insDown_filter (less : FileInfo → FileInfo → Bool) (p : FileInfo → Bool)
    (hpl : ∀ a b, p a = true → p b = true → less a b = false) (x : FileInfo) :
    ∀ acc : List FileInfo, (insDown less x acc).filter p = (x :: acc).filter p := by
  intro acc
  induction acc with
  | nil => rfl
  | cons y ys ih =>
    unfold insDown
    by_cases h : less x y = true
    · rw [if_pos h]
      cases hpx : p x with
      | false =>
        cases hpy : p y with
        | false =>
          simp only [List.filter_cons, hpx, hpy, Bool.false_eq_true, if_false] at ih ⊢
          exact ih
        | true =>
          simp only [List.filter_cons, hpx, hpy, Bool.false_eq_true, if_false, if_true] at ih ⊢
          rw [ih]
      | true =>
        cases hpy : p y with
        | false =>
          simp only [List.filter_cons, hpx, hpy, Bool.false_eq_true, if_false, if_true] at ih ⊢
          exact ih
        | true => exact absurd h (by simp [hpl x y hpx hpy])
    · rw [if_neg h]

theorem goSortRun_filter (less : FileInfo → FileInfo → Bool) (p : FileInfo → Bool)
    (hpl : ∀ a b, p a = true → p b = true → less a b = false) :
    ∀ (xs acc : List FileInfo),
      (goSortRun less acc xs).filter p = (acc.filter p).reverse ++ xs.filter p := by
  intro xs
  induction xs with
  | nil => intro acc; simp [goSortRun, List.filter_reverse]
  | cons x xs ih =>
    intro acc
    unfold goSortRun
    rw [ih (insDown less x acc), insDown_filter less p hpl x acc]
    cases hpx : p x with
    | false => simp [List.filter_cons, hpx]
    | true => simp [List.filter_cons, hpx]

/-! ## C3: sort stability -/

/-- Counterexample to C3 as stated: two records with exactly equal size
keys, sorted by size with `reverse = true`, come out in the opposite of
their input order.  The negated comparator reports a tie as less-than in
both directions, and the insertion sort Go's `sort.Slice` runs on such
short slices then swaps the tied neighbours, so ties do not retain their
input order under `reverse`. -/
theorem sortFiles_reverse_tie_swaps :
    tieA.Size = tieB.Size ∧ tieA ≠ tieB ∧
    sortFiles [tieA, tieB] SortBySize true = [tieB, tieA] := by
  refine ⟨rfl, by decide, by decide⟩

/-- C3 amended: on slices of at most 12 records — where `sort.Slice`'s
pdqsort runs exactly the insertion sort embedded here, the only regime in
which the program sorts deterministically on ties at all — the sort with
`reverse = false` is stable: for every record `x`, the subsequence of
records whose selected key equals `x`'s key is exactly the same (same
records, same relative order) before and after sorting.  With
`reverse = true` the negation of the comparator makes the same insertion
sort reverse tied neighbours instead (see the counterexample); on longer
slices `sort.Slice` guarantees no tie order in either direction. -/
theorem sortFiles_stable_nonreverse (mode : SortMode) (l : List FileInfo) (x : FileInfo)
    (hlen : l.length ≤ 12) :
    (sortFiles l mode false).filter (sameKey mode x) = l.filter (sameKey mode x) := by
  unfold sortFiles goSortSlice
  rw [goSortRun_filter]
  · simp
  · intro a b ha hb
    exact compareFiles_false_of_sameKey ha hb

/-- Witness for the amended C3 theorem: a two-record tie (below the
pdqsort insertion threshold) keeps its input order under the ascending
sort. -/
theorem sortFiles_stable_nonreverse_witness :
    ([tieA, tieB].length ≤ 12) ∧
    (sortFiles [tieA, tieB] SortBySize false).filter (sameKey SortBySize tieA)
      = [tieA, tieB].filter (sameKey SortBySize tieA) :=
  ⟨by decide, sortFiles_stable_nonreverse SortBySize [tieA, tieB] tieA (by decide)⟩

/-! ## Sortedness of the modelled insertion sort (towards C7) -/

theorem beqComm {α : Type} [BEq α] [LawfulBEq α] (x y : α) : (x == y) = (y == x) := by
  rw [Bool.eq_iff_iff]
  simp only [beq_iff_eq]
  exact ⟨Eq.symm, Eq.symm⟩

theorem sameKey_comm (mode : SortMode) (a b : FileInfo) :
    sameKey mode a b = sameKey mode b a := by
  unfold sameKey
  split_ifs <;> exact beqComm _ _

theorem compareFiles_congr_left {a b c : FileInfo} {mode : SortMode}
    (h : sameKey mode a b = true) : compareFiles a c mode = compareFiles b c mode := by
  unfold sameKey at h
  unfold compareFiles goStringLt
  split_ifs at h ⊢ <;> simp only [beq_iff_eq] at h <;> rw [h]

theorem compareFiles_ge_trans {a b c : FileInfo} {mode : SortMode}
    (hab : compareFiles a b mode = false) (hbc : compareFiles b c mode = false) :
    compareFiles a c mode = false := by
  by_contra hac'
  rw [Bool.not_eq_false] at hac'
  by_cases hba : compareFiles b a mode = true
  · exact absurd (compareFiles_trans hba hac') (by simp [hbc])
  · rw [Bool.not_eq_true] at hba
    have hkey := compareFiles_sameKey_of_not hab hba
    rw [compareFiles_congr_left hkey] at hac'
    exact absurd hac' (by simp [hbc])

theorem insDown_pairwise (less : FileInfo → FileInfo → Bool)
    (htrans : ∀ a b c, less a b = true → less b c = true → less a c = true)
    (x : FileInfo) :
    ∀ acc : List FileInfo,
      acc.Pairwise (fun a b => less b a = true) →
      (∀ y ∈ acc, less x y = true ∨ less y x = true) →
      (insDown less x acc).Pairwise (fun a b => less b a = true) := by
  intro acc
  induction acc with
  | nil => intro _ _; simp [insDown]
  | cons y ys ih =>
    intro hacc hcomp
    rw [List.pairwise_cons] at hacc
    obtain ⟨hy, hys⟩ := hacc
    unfold insDown
    by_cases hxy : less x y = true
    · rw [if_pos hxy]
      rw [List.pairwise_cons]
      constructor
      · intro z hz
        rcases List.mem_cons.mp ((insDown_perm less x ys).mem_iff.mp hz) with hz | hz
        · subst hz; exact hxy
        · exact hy z hz
      · exact ih hys (fun z hz => hcomp z (by simp [hz]))
    · rw [if_neg hxy]
      rw [Bool.not_eq_true] at hxy
      rw [List.pairwise_cons]
      constructor
      · intro z hz
        rcases List.mem_cons.mp hz with hz | hz
        · subst hz
          rcases hcomp z (by simp) with h | h
          · exact absurd h (by simp [hxy])
          · exact h
        · have hyx : less y x = true := by
            rcases hcomp y (by simp) with h | h
            · exact absurd h (by simp [hxy])
            · exact h
          exact htrans z y x (hy z hz) hyx
      · exact List.Pairwise.cons hy hys

theorem goSortRun_pairwise (less : FileInfo → FileInfo → Bool)
    (htrans : ∀ a b c, less a b = true → less b c = true → less a c = true) :
    ∀ (xs acc : List FileInfo),
      xs.Pairwise (fun a b => less a b = true ∨ less b a = true) →
      acc.Pairwise (fun a b => less b a = true) →
      (∀ a ∈ acc, ∀ b ∈ xs, less a b = true ∨ less b a = true) →
      (goSortRun less acc xs).Pairwise (fun a b => less a b = true) := by
  intro xs
  induction xs with
  | nil =>
    intro acc _ hacc _
    unfold goSortRun
    exact (List.pairwise_reverse).mpr hacc
  | cons x xs ih =>
    intro acc hxs hacc hcross
    rw [List.pairwise_cons] at hxs
    obtain ⟨hx, hxs'⟩ := hxs
    unfold goSortRun
    refine ih (insDown less x acc) hxs' ?_ ?_
    · exact insDown_pairwise less htrans x acc hacc
        (fun y hy => (hcross y hy x (by simp)).symm)
    · intro a ha b hb
      rcases List.mem_cons.mp ((insDown_perm less x acc).mem_iff.mp ha) with ha | ha
      · subst ha; exact hx b hb
      · exact hcross a ha b (by simp [hb])

/-! ## C7: reverse yields the exactly reversed ordinal assignment -/

/-- C7: for records whose selected keys are pairwise distinct (no ties),
sorting with `reverse = true` produces exactly the reverse of the
`reverse = false` order, i.e. the record at ordinal `k` of `n` in
ascending order sits at ordinal `n - 1 - k` in reverse order. -/
theorem sortFiles_reverse_exact (mode : SortMode) (l : List FileInfo)
    (hdist : l.Pairwise (fun a b => sameKey mode a b = false)) :
    sortFiles l mode true = (sortFiles l mode false).reverse := by
  have e0 : sortFiles l mode false = goSortRun (fun a b => compareFiles a b mode) [] l := rfl
  have e1 : sortFiles l mode true = goSortRun (fun a b => !compareFiles a b mode) [] l := rfl
  have hsymm : Symmetric (fun a b : FileInfo => sameKey mode a b = false) := by
    intro a b h; rw [sameKey_comm]; exact h
  have hp0 : (goSortRun (fun a b => compareFiles a b mode) [] l).Perm l := by
    simpa using goSortRun_perm (fun a b => compareFiles a b mode) l []
  have hp1 : (goSortRun (fun a b => !compareFiles a b mode) [] l).Perm l := by
    simpa using goSortRun_perm (fun a b => !compareFiles a b mode) l []
  have h_sf : (goSortRun (fun a b => compareFiles a b mode) [] l).Pairwise
      (fun a b => compareFiles a b mode = true) := by
    refine goSortRun_pairwise (fun a b => compareFiles a b mode)
      (fun a b c h1 h2 => compareFiles_trans h1 h2) l [] ?_ (by simp) (by simp)
    exact hdist.imp (fun h => compareFiles_conn h)
  have h_st : (goSortRun (fun a b => !compareFiles a b mode) [] l).Pairwise
      (fun a b => (!compareFiles a b mode) = true) := by
    refine goSortRun_pairwise (fun a b => !compareFiles a b mode) ?_ l [] ?_
      (by simp) (by simp)
    · intro a b c h1 h2
      rw [Bool.not_eq_true'] at h1 h2 ⊢
      exact compareFiles_ge_trans h1 h2
    · refine hdist.imp (fun {a b} _ => ?_)
      by_cases hc : compareFiles a b mode = true
      · exact Or.inr (by rw [Bool.not_eq_true']; exact compareFiles_asymm hc)
      · exact Or.inl (by rw [Bool.not_eq_true']; exact Bool.eq_false_iff.mpr hc)
  have hdist_st : (goSortRun (fun a b => !compareFiles a b mode) [] l).Pairwise
      (fun a b => sameKey mode a b = false) := by
    refine (List.Perm.pairwise_iff ?_ hp1).mpr hdist
    intro a b h
    rw [sameKey_comm]
    exact h
  have h_rev : ((goSortRun (fun a b => !compareFiles a b mode) [] l).reverse).Pairwise
      (fun a b => compareFiles a b mode = true) := by
    rw [List.pairwise_reverse]
    refine (List.pairwise_and_iff.mpr ⟨h_st, hdist_st⟩).imp ?_
    rintro a b ⟨h1, h2⟩
    rw [Bool.not_eq_true'] at h1
    exact (compareFiles_conn h2).resolve_left (by simp [h1])
  have hperm : ((goSortRun (fun a b => !compareFiles a b mode) [] l).reverse).Perm
      (goSortRun (fun a b => compareFiles a b mode) [] l) :=
    ((List.reverse_perm _).trans hp1).trans hp0.symm
  haveI : IsAntisymm FileInfo (fun a b => compareFiles a b mode = true) :=
    ⟨fun a b h1 h2 => absurd h2 (by simp [compareFiles_asymm h1])⟩
  have heq := List.eq_of_perm_of_sorted hperm h_rev h_sf
  rw [e0, e1, ← heq, List.reverse_reverse]

/-- Witness for C7: three records with pairwise distinct sizes. -/
theorem sortFiles_reverse_exact_witness :
    sortFiles [{ Path := "a", Size := 5, CreateTime := 0, ModTime := 0, AccessTime := 0 },
               { Path := "b", Size := 3, CreateTime := 0, ModTime := 0, AccessTime := 0 },
               { Path := "c", Size := 4, CreateTime := 0, ModTime := 0, AccessTime := 0 }]
        SortBySize true =
      (sortFiles [{ Path := "a", Size := 5, CreateTime := 0, ModTime := 0, AccessTime := 0 },
                  { Path := "b", Size := 3, CreateTime := 0, ModTime := 0, AccessTime := 0 },
                  { Path := "c", Size := 4, CreateTime := 0, ModTime := 0, AccessTime := 0 }]
          SortBySize false).reverse :=
  sortFiles_reverse_exact SortBySize _ (by decide)


/-! ## Filesystem lookup characterizations (towards C2, C9) -/

theorem lookupFS_cons (a : String) (f : File) (rest : FS) (q : String) :
    lookupFS ((a, f) :: rest) q = if a = q then some f else lookupFS rest q := rfl

theorem lookupFS_eraseFS (fs : FS) (p q : String) :
    lookupFS (eraseFS fs p) q = if q = p then none else lookupFS fs q := by
  induction fs with
  | nil => simp [eraseFS, lookupFS]
  | cons e rest ih =>
    obtain ⟨a, f⟩ := e
    show lookupFS (if a = p then eraseFS rest p else (a, f) :: eraseFS rest p) q = _
    by_cases hap : a = p
    · rw [if_pos hap, ih, lookupFS_cons]
      by_cases hq : q = p
      · rw [if_pos hq, if_pos hq]
      · rw [if_neg hq, if_neg hq, if_neg (fun h : a = q => hq (h ▸ hap))]
    · rw [if_neg hap, lookupFS_cons, lookupFS_cons]
      by_cases haq : a = q
      · rw [if_pos haq, if_pos haq, if_neg (fun hqp : q = p => hap (haq.trans hqp))]
      · rw [if_neg haq, if_neg haq, ih]

theorem renameSt_true {st st' : St} {src dst : String}
    (h : renameSt st src dst = (true, st')) :
    (lookupFS st.fs src).isSome = true ∧ st'.pid = st.pid ∧
    ∀ q, lookupFS st'.fs q =
      if q = dst then lookupFS st.fs src else if q = src then none else lookupFS st.fs q := by
  unfold renameSt at h
  cases hl : lookupFS st.fs src with
  | none => rw [hl] at h; simp at h
  | some f =>
    rw [hl] at h
    simp only [Prod.mk.injEq, true_and] at h
    subst h
    refine ⟨by simp [hl], rfl, ?_⟩
    intro q
    show lookupFS ((dst, f) :: eraseFS (eraseFS st.fs src) dst) q = _
    rw [lookupFS_cons, lookupFS_eraseFS, lookupFS_eraseFS]
    by_cases hq : q = dst
    · rw [if_pos hq.symm, if_pos hq]
    · rw [if_neg (fun hh : dst = q => hq hh.symm), if_neg hq, if_neg hq]

theorem renameSt_of_isSome {st : St} {src dst : String}
    (h : (lookupFS st.fs src).isSome = true) :
    ∃ st', renameSt st src dst = (true, st') := by
  unfold renameSt
  cases hl : lookupFS st.fs src with
  | none => rw [hl] at h; simp at h
  | some f => exact ⟨_, rfl⟩

theorem removeSt_some {st : St} {p : String} {f : File}
    (h : lookupFS st.fs p = some f) :
    ∃ st', removeSt st p = (true, st') ∧ st'.pid = st.pid ∧
      ∀ q, lookupFS st'.fs q = if q = p then none else lookupFS st.fs q := by
  unfold removeSt
  rw [h]
  exact ⟨_, rfl, rfl, fun q => lookupFS_eraseFS st.fs p q⟩

theorem lookupAssocStr_of_mem_keys :
    ∀ {l : List (String × String)} {k : String}, k ∈ l.map Prod.fst →
      ∃ t, lookupAssocStr l k = some t ∧ (k, t) ∈ l := by
  intro l
  induction l with
  | nil => intro k h; simp at h
  | cons e rest ih =>
    intro k h
    obtain ⟨a, b⟩ := e
    by_cases hk : a = k
    · subst hk
      exact ⟨b, by simp [lookupAssocStr], by simp⟩
    · simp only [List.map_cons, List.mem_cons] at h
      rcases h with h | h
      · exact absurd h.symm hk
      · obtain ⟨t, ht, hmem⟩ := ih h
        exact ⟨t, by simp [lookupAssocStr, hk, ht], by simp [hmem]⟩

theorem lookupAssocStr_mem :
    ∀ {l : List (String × String)} {k t : String},
      lookupAssocStr l k = some t → (k, t) ∈ l := by
  intro l
  induction l with
  | nil => intro k t h; simp [lookupAssocStr] at h
  | cons e rest ih =>
    intro k t h
    obtain ⟨a, b⟩ := e
    unfold lookupAssocStr at h
    by_cases hk : a = k
    · subst hk
      rw [if_pos rfl] at h
      simp only [Option.some.injEq] at h
      simp [h]
    · rw [if_neg hk] at h
      simp [ih h]

theorem eq_fst_of_mem_of_nodup_snd :
    ∀ {l : List (String × String)} {a₁ a₂ b : String},
      (l.map Prod.snd).Nodup → (a₁, b) ∈ l → (a₂, b) ∈ l → a₁ = a₂ := by
  intro l
  induction l with
  | nil => intro a₁ a₂ b _ h; simp at h
  | cons e rest ih =>
    intro a₁ a₂ b hnd h1 h2
    obtain ⟨x, y⟩ := e
    simp only [List.map_cons, List.nodup_cons] at hnd
    rcases List.mem_cons.mp h1 with h1 | h1 <;> rcases List.mem_cons.mp h2 with h2 | h2
    · rw [Prod.mk.injEq] at h1 h2
      rw [h1.1, h2.1]
    · exfalso
      rw [Prod.mk.injEq] at h1
      exact hnd.1 (h1.2 ▸ (List.mem_map.mpr ⟨(a₂, b), h2, rfl⟩))
    · exfalso
      rw [Prod.mk.injEq] at h2
      exact hnd.1 (h2.2 ▸ (List.mem_map.mpr ⟨(a₁, b), h1, rfl⟩))
    · exact ih hnd.2 h1 h2

theorem eq_snd_of_mem_of_nodup_fst :
    ∀ {l : List (String × String)} {a b₁ b₂ : String},
      (l.map Prod.fst).Nodup → (a, b₁) ∈ l → (a, b₂) ∈ l → b₁ = b₂ := by
  intro l
  induction l with
  | nil => intro a b₁ b₂ _ h; simp at h
  | cons e rest ih =>
    intro a b₁ b₂ hnd h1 h2
    obtain ⟨x, y⟩ := e
    simp only [List.map_cons, List.nodup_cons] at hnd
    rcases List.mem_cons.mp h1 with h1 | h1 <;> rcases List.mem_cons.mp h2 with h2 | h2
    · rw [Prod.mk.injEq] at h1 h2
      rw [h1.2, h2.2]
    · exfalso
      rw [Prod.mk.injEq] at h1
      exact hnd.1 (h1.1 ▸ (List.mem_map.mpr ⟨(a, b₂), h2, rfl⟩))
    · exfalso
      rw [Prod.mk.injEq] at h2
      exact hnd.1 (h2.1 ▸ (List.mem_map.mpr ⟨(a, b₁), h1, rfl⟩))
    · exact ih hnd.2 h1 h2

/-! ## Structure of `goClean` on a trailing atom (towards C2, C9) -/

theorem splitOnSlash_ne_nil : ∀ l : List Char, splitOnSlash l ≠ [] := by
  intro l
  cases l with
  | nil => simp [splitOnSlash]
  | cons c rest =>
    simp only [splitOnSlash]
    by_cases hc : c = '/'
    · rw [if_pos hc]; simp
    · rw [if_neg hc]
      cases hr : splitOnSlash rest
      · simp
      · simp

theorem splitOnSlash_no_slash :
    ∀ l : List Char, (∀ ch ∈ l, ch ≠ '/') → splitOnSlash l = [l] := by
  intro l
  induction l with
  | nil => intro _; rfl
  | cons c rest ih =>
    intro h
    simp only [splitOnSlash]
    rw [if_neg (h c (by simp)), ih (fun ch hch => h ch (by simp [hch]))]

theorem splitOnSlash_append (xs ys : List Char) (hys : ∀ ch ∈ ys, ch ≠ '/') :
    splitOnSlash (xs ++ '/' :: ys) = splitOnSlash xs ++ [ys] := by
  induction xs with
  | nil =>
    simp only [List.nil_append, splitOnSlash]
    rw [if_pos trivial, splitOnSlash_no_slash ys hys]
    rfl
  | cons x xs ih =>
    show splitOnSlash (x :: (xs ++ '/' :: ys)) = splitOnSlash (x :: xs) ++ [ys]
    simp only [splitOnSlash]
    by_cases hx : x = '/'
    · rw [if_pos hx, if_pos hx, ih]
      rfl
    · rw [if_neg hx, if_neg hx, ih]
      cases hsx : splitOnSlash xs with
      | nil => exact absurd hsx (splitOnSlash_ne_nil xs)
      | cons e es => simp [List.cons_append]

theorem cleanElems_append_atom (rooted : Bool) (ne : List Char)
    (h1 : ne ≠ []) (h2 : ne ≠ ['.']) (h3 : ne ≠ ['.', '.']) :
    ∀ (es acc : List (List Char)),
      cleanElems rooted acc (es ++ [ne]) = ne :: cleanElems rooted acc es := by
  intro es
  induction es with
  | nil =>
    intro acc
    show cleanElems rooted acc [ne] = ne :: cleanElems rooted acc []
    unfold cleanElems
    rw [if_neg (not_or.mpr ⟨h1, h2⟩), if_neg h3]
    rfl
  | cons e es ih =>
    intro acc
    show cleanElems rooted acc (e :: (es ++ [ne])) = ne :: cleanElems rooted acc (e :: es)
    unfold cleanElems
    by_cases he1 : e = [] ∨ e = ['.']
    · rw [if_pos he1, if_pos he1]
      exact ih acc
    · rw [if_neg he1, if_neg he1]
      by_cases he2 : e = ['.', '.']
      · rw [if_pos he2, if_pos he2]
        cases acc with
        | nil =>
          cases rooted
          · show cleanElems false [e] (es ++ [ne]) = ne :: cleanElems false [e] es
            exact ih [e]
          · show cleanElems true [] (es ++ [ne]) = ne :: cleanElems true [] es
            exact ih []
        | cons a as =>
          show (if a = ['.', '.'] then cleanElems rooted (e :: a :: as) (es ++ [ne])
                else cleanElems rooted as (es ++ [ne])) =
              ne :: (if a = ['.', '.'] then cleanElems rooted (e :: a :: as) es
                else cleanElems rooted as es)
          by_cases ha : a = ['.', '.']
          · rw [if_pos ha, if_pos ha]
            exact ih (e :: a :: as)
          · rw [if_neg ha, if_neg ha]
            exact ih as
      · rw [if_neg he2, if_neg he2]
        exact ih (e :: acc)

theorem joinElems_append_last (X : List (List Char)) (nm : List Char) :
    joinElems (X ++ [nm]) = if X = [] then nm else joinElems X ++ '/' :: nm := by
  induction X with
  | nil => simp [joinElems]
  | cons e es ih =>
    cases es with
    | nil => simp [joinElems]
    | cons f fs =>
      show joinElems (e :: ((f :: fs) ++ [nm])) = _
      rw [if_neg (by simp)]
      have he : joinElems (e :: ((f :: fs) ++ [nm])) =
          e ++ '/' :: joinElems ((f :: fs) ++ [nm]) := rfl
      rw [he, ih, if_neg (by simp)]
      show e ++ '/' :: (joinElems (f :: fs) ++ '/' :: nm) =
        (e ++ '/' :: joinElems (f :: fs)) ++ '/' :: nm
      simp [List.append_assoc]

theorem goClean_cons_rooted (cs : List Char) :
    goClean ⟨'/' :: cs⟩ =
      ⟨'/' :: joinElems ((cleanElems true [] (splitOnSlash ('/' :: cs))).reverse)⟩ := rfl

theorem goClean_cons_unrooted (c : Char) (cs : List Char) (hc : ¬(c = '/')) :
    goClean ⟨c :: cs⟩ =
      (if joinElems ((cleanElems false [] (splitOnSlash (c :: cs))).reverse) = [] then "."
       else ⟨joinElems ((cleanElems false [] (splitOnSlash (c :: cs))).reverse)⟩) := by
  unfold goClean
  simp [hc]

/-- Joining a separator-free, non-`"."`, non-`".."`, non-empty final
component onto a fixed non-empty path prepends a prefix that depends only
on the path: the joined result always ends with the component verbatim. -/
theorem goJoin_atom (dir : String) (hdir : dir ≠ "") :
    ∃ pre : List Char, ∀ name : String, name.data ≠ [] →
      (∀ ch ∈ name.data, ch ≠ '/') → name.data ≠ ['.'] → name.data ≠ ['.', '.'] →
      (goJoin dir name).data = pre ++ name.data := by
  obtain ⟨c, cs, hdata⟩ : ∃ c cs, dir.data = c :: cs := by
    cases hd : dir.data with
    | nil => exact absurd (String.ext hd : dir = "") hdir
    | cons c cs => exact ⟨c, cs, rfl⟩
  by_cases hc : c = '/'
  · subst hc
    refine ⟨'/' :: (if (cleanElems true [] (splitOnSlash ('/' :: cs))).reverse = [] then []
      else joinElems ((cleanElems true [] (splitOnSlash ('/' :: cs))).reverse) ++ ['/']), ?_⟩
    intro name hne hns h1 h2
    have hjoin : goJoin dir name = goClean (dir ++ "/" ++ name) := by
      unfold goJoin; rw [if_neg hdir]
    have hstr : (dir ++ "/" ++ name) = ⟨'/' :: (cs ++ '/' :: name.data)⟩ := by
      apply String.ext
      rw [String.data_append, String.data_append, hdata]
      simp
    rw [hjoin, hstr, goClean_cons_rooted]
    show '/' :: joinElems ((cleanElems true []
      (splitOnSlash (('/' :: cs) ++ '/' :: name.data))).reverse) = _
    rw [splitOnSlash_append _ _ hns, cleanElems_append_atom true name.data hne h1 h2,
      List.reverse_cons, joinElems_append_last]
    by_cases hY : (cleanElems true [] (splitOnSlash ('/' :: cs))).reverse = []
    · rw [if_pos hY, if_pos hY]
      rfl
    · rw [if_neg hY, if_neg hY]
      simp [List.append_assoc]
  · refine ⟨(if (cleanElems false [] (splitOnSlash (c :: cs))).reverse = [] then []
      else joinElems ((cleanElems false [] (splitOnSlash (c :: cs))).reverse) ++ ['/']), ?_⟩
    intro name hne hns h1 h2
    have hjoin : goJoin dir name = goClean (dir ++ "/" ++ name) := by
      unfold goJoin; rw [if_neg hdir]
    have hstr : (dir ++ "/" ++ name) = ⟨c :: (cs ++ '/' :: name.data)⟩ := by
      apply String.ext
      rw [String.data_append, String.data_append, hdata]
      simp
    rw [hjoin, hstr, goClean_cons_unrooted c _ hc]
    have hsplit : splitOnSlash (c :: (cs ++ '/' :: name.data)) =
        splitOnSlash (c :: cs) ++ [name.data] := by
      show splitOnSlash ((c :: cs) ++ '/' :: name.data) = _
      rw [splitOnSlash_append _ _ hns]
    rw [hsplit, cleanElems_append_atom false name.data hne h1 h2,
      List.reverse_cons, joinElems_append_last]
    by_cases hY : (cleanElems false [] (splitOnSlash (c :: cs))).reverse = []
    · rw [if_pos hY, if_pos hY, if_neg hne]
      rfl
    · rw [if_neg hY, if_neg hY, if_neg (by simp)]
      show joinElems ((cleanElems false [] (splitOnSlash (c :: cs))).reverse) ++
          '/' :: name.data = _
      simp [List.append_assoc]

/-! ## Temp-candidate names (towards C2, C9) -/

theorem digitChar_ne_slash_dot {d : Nat} (h : d < 16) :
    digitChar d ≠ '/' ∧ digitChar d ≠ '.' := by
  interval_cases d <;> exact ⟨by decide, by decide⟩

theorem natToBaseAux_chars {b : Nat} (hb2 : 2 ≤ b) (hb16 : b ≤ 16) :
    ∀ fuel n ch, ch ∈ natToBaseAux b fuel n → ch ≠ '/' ∧ ch ≠ '.' := by
  intro fuel
  induction fuel with
  | zero => intro n ch h; simp [natToBaseAux] at h
  | succ fuel ih =>
    intro n ch h
    unfold natToBaseAux at h
    by_cases hn : n < b
    · rw [if_pos hn] at h
      simp only [List.mem_singleton] at h
      exact h ▸ digitChar_ne_slash_dot (by omega)
    · rw [if_neg hn] at h
      rcases List.mem_append.mp h with h | h
      · exact ih (n / b) ch h
      · simp only [List.mem_singleton] at h
        exact h ▸ digitChar_ne_slash_dot (lt_of_lt_of_le (Nat.mod_lt n (by omega)) hb16)

theorem natToBase_chars {b : Nat} (hb2 : 2 ≤ b) (hb16 : b ≤ 16) {n : Nat} {ch : Char}
    (h : ch ∈ natToBase b n) : ch ≠ '/' ∧ ch ≠ '.' :=
  natToBaseAux_chars hb2 hb16 (n + 1) n ch h

theorem natToBase_inj {b m n : Nat} (hb2 : 2 ≤ b) (hb16 : b ≤ 16)
    (h : natToBase b m = natToBase b n) : m = n := by
  have := congrArg (parseBaseNum b) h
  rwa [parse_natToBase _ _ hb2 hb16, parse_natToBase _ _ hb2 hb16] at this

theorem goContainsList_of_infix :
    ∀ (l sub : List Char), sub <:+: l → goContainsList sub l = true := by
  intro l
  induction l with
  | nil =>
    intro sub h
    rw [List.infix_nil] at h
    subst h
    rfl
  | cons c rest ih =>
    intro sub h
    rcases List.infix_cons_iff.mp h with h | h
    · unfold goContainsList
      rw [List.isPrefixOf_iff_prefix.mpr h]
      rfl
    · unfold goContainsList
      rw [ih sub h]
      simp

theorem markerData :
    (".renby.tmp." : String).data =
      ['.', 'r', 'e', 'n', 'b', 'y', '.', 't', 'm', 'p', '.'] := rfl

/-- The full structure of a temp-candidate name: a prefix depending only on
the destination directory, followed verbatim by the
`base.renby.tmp.pid.counter+ext` component. -/
theorem tempCandidate_props (dir base ext : String) (pid : Nat)
    (hdir : dir ≠ "")
    (hbase : ∀ ch ∈ base.data, ch ≠ '/')
    (hext : ∀ ch ∈ ext.data, ch ≠ '/') :
    ∃ pre : List Char, ∀ c : Nat,
      (tempCandidate dir base ext pid c).data =
        pre ++ (base.data ++ (".renby.tmp." : String).data ++ (decRepr pid).data ++
          ['.'] ++ (decRepr c).data ++ ext.data) := by
  obtain ⟨pre, hpre⟩ := goJoin_atom dir hdir
  refine ⟨pre, fun c => ?_⟩
  have hdata : (base ++ ".renby.tmp." ++ decRepr pid ++ "." ++ decRepr c ++ ext).data =
      base.data ++ (".renby.tmp." : String).data ++ (decRepr pid).data ++ ['.'] ++
        (decRepr c).data ++ ext.data := by
    simp only [String.data_append]
  have hlen : (base.data ++ (".renby.tmp." : String).data ++ (decRepr pid).data ++ ['.'] ++
      (decRepr c).data ++ ext.data).length =
      base.data.length + 11 + (decRepr pid).data.length + 1 + (decRepr c).data.length +
        ext.data.length := by
    simp [markerData]
    omega
  have hns : ∀ ch ∈ (base ++ ".renby.tmp." ++ decRepr pid ++ "." ++ decRepr c ++ ext).data,
      ch ≠ '/' := by
    rw [hdata]
    intro ch hch
    rcases List.mem_append.mp hch with hch | hch
    · rcases List.mem_append.mp hch with hch | hch
      · rcases List.mem_append.mp hch with hch | hch
        · rcases List.mem_append.mp hch with hch | hch
          · rcases List.mem_append.mp hch with hch | hch
            · exact hbase ch hch
            · rw [markerData] at hch
              fin_cases hch <;> decide
          · exact (natToBase_chars (by norm_num) (by norm_num) hch).1
        · simp only [List.mem_singleton] at hch
          subst hch; decide
      · exact (natToBase_chars (by norm_num) (by norm_num) hch).1
    · exact hext ch hch
  have hne : (base ++ ".renby.tmp." ++ decRepr pid ++ "." ++ decRepr c ++ ext).data ≠ [] := by
    rw [hdata]
    intro h
    have := congrArg List.length h
    rw [hlen] at this
    simp at this
  have h1 : (base ++ ".renby.tmp." ++ decRepr pid ++ "." ++ decRepr c ++ ext).data ≠ ['.'] := by
    rw [hdata]
    intro h
    have := congrArg List.length h
    rw [hlen] at this
    simp at this
    omega
  have h2 : (base ++ ".renby.tmp." ++ decRepr pid ++ "." ++ decRepr c ++ ext).data ≠
      ['.', '.'] := by
    rw [hdata]
    intro h
    have := congrArg List.length h
    rw [hlen] at this
    simp at this
    omega
  have := hpre (base ++ ".renby.tmp." ++ decRepr pid ++ "." ++ decRepr c ++ ext) hne hns h1 h2
  unfold tempCandidate
  rw [this, hdata]

theorem tempCandidate_inj (dir base ext : String) (pid : Nat)
    (hdir : dir ≠ "")
    (hbase : ∀ ch ∈ base.data, ch ≠ '/')
    (hext : ∀ ch ∈ ext.data, ch ≠ '/')
    {c₁ c₂ : Nat}
    (h : tempCandidate dir base ext pid c₁ = tempCandidate dir base ext pid c₂) :
    c₁ = c₂ := by
  obtain ⟨pre, hpre⟩ := tempCandidate_props dir base ext pid hdir hbase hext
  have h' := congrArg String.data h
  rw [hpre c₁, hpre c₂] at h'
  simp only [List.append_assoc] at h'
  have h1 := List.append_cancel_left h'
  have h2 := List.append_cancel_left h1
  have h3 := List.append_cancel_left h2
  have h4 := List.append_cancel_left h3
  have h5 := List.append_cancel_left h4
  have h6 := List.append_cancel_right h5
  exact natToBase_inj (by norm_num) (by norm_num) h6

theorem tempCandidate_contains_marker (dir base ext : String) (pid : Nat)
    (hdir : dir ≠ "")
    (hbase : ∀ ch ∈ base.data, ch ≠ '/')
    (hext : ∀ ch ∈ ext.data, ch ≠ '/') (c : Nat) :
    goContains (tempCandidate dir base ext pid c) ".renby.tmp." = true := by
  obtain ⟨pre, hpre⟩ := tempCandidate_props dir base ext pid hdir hbase hext
  unfold goContains
  apply goContainsList_of_infix
  rw [hpre c]
  exact ⟨pre ++ base.data,
    (decRepr pid).data ++ ['.'] ++ (decRepr c).data ++ ext.data, by simp [List.append_assoc]⟩

/-! ## Path-component facts used by the staging phase -/

theorem goClean_ne_empty (s : String) : goClean s ≠ "" := by
  obtain ⟨data⟩ := s
  cases data with
  | nil => simp [goClean]
  | cons c cs =>
    by_cases hc : c = '/'
    · subst hc
      rw [goClean_cons_rooted]
      intro h
      exact absurd (congrArg String.data h) (by simp)
    · rw [goClean_cons_unrooted c cs hc]
      by_cases hb : joinElems ((cleanElems false [] (splitOnSlash (c :: cs))).reverse) = []
      · rw [if_pos hb]; decide
      · rw [if_neg hb]
        intro h
        exact hb (congrArg String.data h)

theorem goDir_ne_empty (s : String) : goDir s ≠ "" := goClean_ne_empty _

theorem extScan_no_slash :
    ∀ (l acc e : List Char), (∀ ch ∈ acc, ch ≠ '/') → extScan acc l = some e →
      ∀ ch ∈ e, ch ≠ '/' := by
  intro l
  induction l with
  | nil => intro acc e _ h; simp [extScan] at h
  | cons c rest ih =>
    intro acc e hacc h
    unfold extScan at h
    by_cases hc : c = '/'
    · rw [if_pos hc] at h; simp at h
    · rw [if_neg hc] at h
      by_cases hdot : c = '.'
      · rw [if_pos hdot] at h
        simp only [Option.some.injEq] at h
        subst h
        intro ch hch
        rcases List.mem_cons.mp hch with hch | hch
        · subst hch; rw [hdot]; decide
        · exact hacc ch hch
      · rw [if_neg hdot] at h
        exact ih (c :: acc) e
          (fun ch hch => by
            rcases List.mem_cons.mp hch with hch | hch
            · subst hch; exact hc
            · exact hacc ch hch) h

theorem goExt_no_slash (s : String) : ∀ ch ∈ (goExt s).data, ch ≠ '/' := by
  unfold goExt
  cases hs : extScan [] s.data.reverse with
  | none => simp
  | some e => exact extScan_no_slash _ [] e (by simp) hs

theorem goTrimSuffix_no_slash {s : String} (suffix : String)
    (hs : ∀ ch ∈ s.data, ch ≠ '/') :
    ∀ ch ∈ (goTrimSuffix s suffix).data, ch ≠ '/' := by
  unfold goTrimSuffix
  by_cases h : suffix.data.isSuffixOf s.data
  · rw [if_pos h]
    intro ch hch
    exact hs ch (List.take_subset _ _ hch)
  · rw [if_neg h]
    exact hs

theorem lookup_isSome_mem_keys :
    ∀ {fs : FS} {p : String}, (lookupFS fs p).isSome = true → p ∈ fs.map Prod.fst := by
  intro fs
  induction fs with
  | nil => intro p h; simp [lookupFS] at h
  | cons e rest ih =>
    intro p h
    obtain ⟨a, f⟩ := e
    rw [lookupFS_cons] at h
    by_cases hap : a = p
    · simp [hap]
    · rw [if_neg hap] at h
      simp [ih h]

/-! ## The temp-name generation loop (C9) -/

theorem genTempLoop_none_all_present (dir base ext : String) :
    ∀ (fuel c : Nat) (st : St), genTempLoop dir base ext fuel c st = none →
      ∀ j, j < fuel →
        (lookupFS st.fs (tempCandidate dir base ext st.pid (c + j))).isSome = true := by
  intro fuel
  induction fuel with
  | zero => intro c st h j hj; omega
  | succ fuel ih =>
    intro c st h j hj
    unfold genTempLoop at h
    simp only [statSt] at h
    cases hl : lookupFS st.fs (tempCandidate dir base ext st.pid c) <;>
      simp only [hl] at h
    · exact absurd h (by simp)
    · cases j with
      | zero => simp [hl]
      | succ j' =>
        have hr := ih (c + 1) (st.log (.statEv (tempCandidate dir base ext st.pid c))) h j'
          (by omega)
        rw [show c + 1 + j' = c + (j' + 1) from by omega] at hr
        exact hr

theorem genTempLoop_some_spec (dir base ext : String) :
    ∀ (fuel c : Nat) (st : St) (temp : String) (k : Nat) (st' : St),
      genTempLoop dir base ext fuel c st = some (temp, k, st') →
      lookupFS st.fs temp = none ∧ st'.fs = st.fs ∧ st'.pid = st.pid ∧ c < k ∧
      temp = tempCandidate dir base ext st.pid (k - 1) ∧
      ∀ j, c ≤ j → j < k - 1 →
        (lookupFS st.fs (tempCandidate dir base ext st.pid j)).isSome = true := by
  intro fuel
  induction fuel with
  | zero => intro c st temp k st' h; simp [genTempLoop] at h
  | succ fuel ih =>
    intro c st temp k st' h
    unfold genTempLoop at h
    simp only [statSt] at h
    cases hl : lookupFS st.fs (tempCandidate dir base ext st.pid c) <;>
      simp only [hl] at h
    · simp only [Option.some.injEq, Prod.mk.injEq] at h
      obtain ⟨h1, h2, h3⟩ := h
      subst h1; subst h2
      refine ⟨hl, by subst h3; rfl, by subst h3; rfl, by omega, by simp, ?_⟩
      intro j hj1 hj2
      omega
    · have hr := ih (c + 1) (st.log (.statEv (tempCandidate dir base ext st.pid c)))
        temp k st' h
      refine ⟨hr.1, hr.2.1, hr.2.2.1, by omega, hr.2.2.2.2.1, ?_⟩
      intro j hj1 hj2
      by_cases hjc : j = c
      · subst hjc; simp [hl]
      · exact hr.2.2.2.2.2 j (by omega) hj2

theorem genTempLoop_succeeds (dir base ext : String) (st : St) (c : Nat)
    (hdir : dir ≠ "")
    (hbase : ∀ ch ∈ base.data, ch ≠ '/')
    (hext : ∀ ch ∈ ext.data, ch ≠ '/') :
    ∃ temp k st', genTempLoop dir base ext (st.fs.length + 1) c st = some (temp, k, st') := by
  cases hres : genTempLoop dir base ext (st.fs.length + 1) c st with
  | some r =>
    obtain ⟨t, k, s'⟩ := r
    exact ⟨t, k, s', rfl⟩
  | none =>
    exfalso
    have hall := genTempLoop_none_all_present dir base ext _ c st hres
    have hsub : ((List.range (st.fs.length + 1)).map
        (fun j => tempCandidate dir base ext st.pid (c + j))) ⊆ st.fs.map Prod.fst := by
      intro x hx
      rcases List.mem_map.mp hx with ⟨j, hj, rfl⟩
      exact lookup_isSome_mem_keys (hall j (List.mem_range.mp hj))
    have hnd : ((List.range (st.fs.length + 1)).map
        (fun j => tempCandidate dir base ext st.pid (c + j))).Nodup := by
      refine List.Nodup.map ?_ (List.nodup_range _)
      intro j₁ j₂ hj
      have := tempCandidate_inj dir base ext st.pid hdir hbase hext hj
      omega
    have hle := (hnd.subperm hsub).length_le
    simp at hle

/-! ## The staging phase (towards C2, C9) -/

/-- Full characterization of a successful staging pass: it stages exactly
the `src ≠ dst` pairs in order, every generated temp name carries the
`.renby.tmp.` marker, temp names are pairwise distinct, each temp holds its
source's content, every temp was fresh at phase start (or reuses the name
of an already-staged source), paths outside the staged sources and temps
are untouched, and staged sources are gone. -/
theorem stagePhase_spec :
    ∀ (plan : List (String × String)) (c₀ : Nat) (temps₀ : List (String × String)) (st : St),
      (plan.map Prod.fst).Nodup →
      (∀ p ∈ plan, (lookupFS st.fs p.1).isSome = true) →
      (∀ p ∈ plan, p.1 ≠ p.2 →
        ∀ ch ∈ (goTrimSuffix (goBase p.2) (goExt p.2)).data, ch ≠ '/') →
      ∃ (tnew : List (String × String)) (c' : Nat) (st' : St),
        stagePhase plan c₀ temps₀ st = .ok (temps₀ ++ tnew, c', st') ∧
        st'.pid = st.pid ∧
        tnew.map Prod.fst = (plan.filter (fun p => p.1 ≠ p.2)).map Prod.fst ∧
        (tnew.map Prod.snd).Nodup ∧
        (∀ tp ∈ tnew, goContains tp.2 ".renby.tmp." = true) ∧
        (∀ tp ∈ tnew, lookupFS st'.fs tp.2 = lookupFS st.fs tp.1) ∧
        (∀ tp ∈ tnew, lookupFS st.fs tp.2 = none ∨
          tp.2 ∈ (plan.filter (fun p => p.1 ≠ p.2)).map Prod.fst) ∧
        (∀ q : String, q ∉ tnew.map Prod.snd →
          q ∉ (plan.filter (fun p => p.1 ≠ p.2)).map Prod.fst →
          lookupFS st'.fs q = lookupFS st.fs q) ∧
        (∀ s ∈ (plan.filter (fun p => p.1 ≠ p.2)).map Prod.fst,
          s ∉ tnew.map Prod.snd → lookupFS st'.fs s = none) := by
  intro plan
  induction plan with
  | nil =>
    intro c₀ temps₀ st _ _ _
    exact ⟨[], c₀, st, by simp [stagePhase], rfl, by simp, by simp, by simp, by simp,
      by simp, fun q _ _ => rfl, by simp⟩
  | cons hd rest ih =>
    intro c₀ temps₀ st hnd hex hslash
    obtain ⟨src, dst⟩ := hd
    simp only [List.map_cons, List.nodup_cons] at hnd
    by_cases hsd : src = dst
    · -- identity pair: skipped by the stage loop and absent from the filter
      have hfilt : ((src, dst) :: rest).filter (fun p => p.1 ≠ p.2) =
          rest.filter (fun p => p.1 ≠ p.2) := by
        rw [List.filter_cons_of_neg]
        simp [hsd]
      obtain ⟨tnew, c', st', H1, H2, H3, H4, H5, H6, H7, H8, H9⟩ :=
        ih c₀ temps₀ st hnd.2 (fun p hp => hex p (by simp [hp]))
          (fun p hp h => hslash p (by simp [hp]) h)
      refine ⟨tnew, c', st', ?_, H2, ?_, H4, H5, H6, ?_, ?_, ?_⟩
      · show stagePhase ((src, dst) :: rest) c₀ temps₀ st = _
        unfold stagePhase
        rw [if_pos hsd]
        exact H1
      · rw [hfilt]; exact H3
      · rw [hfilt]; exact H7
      · rw [hfilt]; exact H8
      · rw [hfilt]; exact H9
    · -- a really staged pair
      have hfilt : ((src, dst) :: rest).filter (fun p => p.1 ≠ p.2) =
          (src, dst) :: rest.filter (fun p => p.1 ≠ p.2) := by
        rw [List.filter_cons_of_pos]
        simp [hsd]
      have hdir : goDir dst ≠ "" := goDir_ne_empty _
      have hextns := goExt_no_slash dst
      have hbase := hslash (src, dst) (by simp) hsd
      obtain ⟨temp, k, st₂, hgen⟩ :=
        genTempLoop_succeeds (goDir dst) (goTrimSuffix (goBase dst) (goExt dst))
          (goExt dst) st c₀ hdir hbase hextns
      obtain ⟨hfresh, hfs₂, hpid₂, hck, htempeq, _⟩ :=
        genTempLoop_some_spec _ _ _ _ _ _ _ _ _ hgen
      have hmarker : goContains temp ".renby.tmp." = true := by
        rw [htempeq]
        exact tempCandidate_contains_marker _ _ _ _ hdir hbase hextns _
      have hsrc_some : (lookupFS st₂.fs src).isSome = true := by
        rw [hfs₂]; exact hex (src, dst) (by simp)
      obtain ⟨st₃, hren⟩ := @renameSt_of_isSome _ _ temp hsrc_some
      obtain ⟨_, hpid₃, hlook₃⟩ := renameSt_true hren
      -- helpers
      have hmem_srcs : ∀ s : String,
          s ∈ (rest.filter (fun p => p.1 ≠ p.2)).map Prod.fst → ∃ p ∈ rest, p.1 = s := by
        intro s hs
        rcases List.mem_map.mp hs with ⟨p, hp, hps⟩
        exact ⟨p, (List.mem_filter.mp hp).1, hps⟩
      have hpresent : ∀ s : String, (∃ p ∈ rest, p.1 = s) →
          (lookupFS st.fs s).isSome = true := by
        rintro s ⟨p, hp, rfl⟩
        exact hex p (by simp [hp])
      have hne_temp : ∀ s : String, (lookupFS st.fs s).isSome = true → s ≠ temp := by
        intro s hsome hst
        rw [hst, hfresh] at hsome
        simp at hsome
      have hsrc_ne_temp : src ≠ temp := hne_temp src (by rw [← hfs₂]; exact hsrc_some)
      have hex₃ : ∀ p ∈ rest, (lookupFS st₃.fs p.1).isSome = true := by
        intro p hp
        have hp_some := hex p (by simp [hp])
        rw [hlook₃ p.1, if_neg (hne_temp p.1 hp_some),
          if_neg (fun h : p.1 = src => hnd.1 (h ▸ List.mem_map.mpr ⟨p, hp, rfl⟩)), hfs₂]
        exact hp_some
      obtain ⟨tnew', c', st', H1, H2, H3, H4, H5, H6, H7, H8, H9⟩ :=
        ih k (temps₀ ++ [(src, temp)]) st₃ hnd.2 hex₃
          (fun p hp h => hslash p (by simp [hp]) h)
      -- temp is not among the new temps of the tail
      have htemp_notin : temp ∉ tnew'.map Prod.snd := by
        intro hmem
        rcases List.mem_map.mp hmem with ⟨tp, htp, htp2⟩
        rcases H7 tp htp with hcase | hcase
        · rw [htp2, hlook₃ temp, if_pos rfl] at hcase
          rw [hcase] at hsrc_some
          simp at hsrc_some
        · rw [htp2] at hcase
          exact hne_temp temp (hpresent temp (hmem_srcs temp hcase)) rfl
      have htemp_notin_srcs : temp ∉ (rest.filter (fun p => p.1 ≠ p.2)).map Prod.fst := by
        intro hmem
        exact hne_temp temp (hpresent temp (hmem_srcs temp hmem)) rfl
      refine ⟨(src, temp) :: tnew', c', st', ?_, ?_, ?_, ?_, ?_, ?_, ?_, ?_, ?_⟩
      · show stagePhase ((src, dst) :: rest) c₀ temps₀ st = _
        unfold stagePhase
        rw [if_neg hsd]
        simp only [hgen, hren, H1]
        simp [List.append_assoc]
      · rw [H2, hpid₃, hpid₂]
      · rw [hfilt]
        simp only [List.map_cons, List.cons.injEq]
        exact ⟨trivial, H3⟩
      · simp only [List.map_cons, List.nodup_cons]
        exact ⟨htemp_notin, H4⟩
      · intro tp htp
        rcases List.mem_cons.mp htp with htp | htp
        · rw [htp]; exact hmarker
        · exact H5 tp htp
      · intro tp htp
        rcases List.mem_cons.mp htp with htp | htp
        · subst htp
          show lookupFS st'.fs temp = lookupFS st.fs src
          rw [H8 temp htemp_notin htemp_notin_srcs, hlook₃ temp, if_pos rfl, hfs₂]
        · rw [H6 tp htp, hlook₃ tp.1]
          have htp1 : tp.1 ∈ (rest.filter (fun p => p.1 ≠ p.2)).map Prod.fst := by
            rw [← H3]
            exact List.mem_map.mpr ⟨tp, htp, rfl⟩
          have htp1_some := hpresent tp.1 (hmem_srcs tp.1 htp1)
          rw [if_neg (hne_temp tp.1 htp1_some),
            if_neg (fun h : tp.1 = src => hnd.1 (by
              obtain ⟨p, hp, hps⟩ := hmem_srcs tp.1 htp1
              exact h ▸ hps ▸ List.mem_map.mpr ⟨p, hp, rfl⟩)), hfs₂]
      · intro tp htp
        rcases List.mem_cons.mp htp with htp | htp
        · subst htp
          exact Or.inl hfresh
        · rcases H7 tp htp with hcase | hcase
          · rw [hlook₃ tp.2] at hcase
            by_cases h1 : tp.2 = temp
            · rw [if_pos h1] at hcase
              rw [hcase] at hsrc_some
              simp at hsrc_some
            · rw [if_neg h1] at hcase
              by_cases h2 : tp.2 = src
              · refine Or.inr ?_
                rw [hfilt, h2]
                simp
              · rw [if_neg h2, hfs₂] at hcase
                exact Or.inl hcase
          · refine Or.inr ?_
            rw [hfilt]
            simp only [List.map_cons, List.mem_cons]
            exact Or.inr hcase
      · intro q hq1 hq2
        simp only [List.map_cons, List.mem_cons, not_or] at hq1
        rw [hfilt] at hq2
        simp only [List.map_cons, List.mem_cons, not_or] at hq2
        rw [H8 q hq1.2 hq2.2, hlook₃ q, if_neg hq1.1, if_neg hq2.1, hfs₂]
      · intro s hs hsnot
        rw [hfilt] at hs
        simp only [List.map_cons, List.mem_cons] at hs
        simp only [List.map_cons, List.mem_cons, not_or] at hsnot
        rcases hs with hs | hs
        · subst hs
          have hs_notin_srcs : s ∉ (rest.filter (fun p => p.1 ≠ p.2)).map Prod.fst := by
            intro hmem
            obtain ⟨p, hp, hps⟩ := hmem_srcs s hmem
            exact hnd.1 (hps ▸ List.mem_map.mpr ⟨p, hp, rfl⟩)
          rw [H8 s hsnot.2 hs_notin_srcs, hlook₃ s, if_neg hsrc_ne_temp, if_pos rfl]
        · exact H9 s hs hsnot.2

/-! ## The commit phase (towards C2) -/

/-- Characterization of a successful commit pass: provided destinations are
pairwise distinct and never marker-shaped, each staged temp is present with
its source's content, temps of distinct pairs are distinct, and identity
pairs already hold their content, the pass succeeds, leaves every planned
destination holding its source's content `v`, and touches nothing else. -/
theorem commitPhase_spec :
    ∀ (plan₂ : List (String × String)) (temps : List (String × String)) (st₁ : St)
      (v : String → Option File),
      (plan₂.map Prod.fst).Nodup →
      (plan₂.map Prod.snd).Nodup →
      (∀ p ∈ plan₂, goContains p.2 ".renby.tmp." = false) →
      (∀ p ∈ plan₂, p.1 = p.2 → lookupFS st₁.fs p.2 = v p.1) →
      (∀ p ∈ plan₂, p.1 ≠ p.2 → ∃ t, lookupAssocStr temps p.1 = some t ∧
        lookupFS st₁.fs t = v p.1 ∧ (v p.1).isSome = true ∧
        goContains t ".renby.tmp." = true ∧
        (∀ p' ∈ plan₂, p'.1 ≠ p.1 → p'.1 ≠ p'.2 → lookupAssocStr temps p'.1 ≠ some t)) →
      ∃ st₂, commitPhase temps plan₂ st₁ = .ok st₂ ∧
        (∀ p ∈ plan₂, lookupFS st₂.fs p.2 = v p.1) ∧
        (∀ q : String, (∀ p ∈ plan₂, q ≠ p.2) →
          (∀ p ∈ plan₂, p.1 ≠ p.2 → lookupAssocStr temps p.1 ≠ some q) →
          lookupFS st₂.fs q = lookupFS st₁.fs q) := by
  intro plan₂
  induction plan₂ with
  | nil =>
    intro temps st₁ v _ _ _ _ _
    exact ⟨st₁, rfl, by simp, fun q _ _ => rfl⟩
  | cons hd rest ih =>
    intro temps st₁ v hndf hnds hmark hid htmp
    obtain ⟨src, dst⟩ := hd
    simp only [List.map_cons, List.nodup_cons] at hndf hnds
    by_cases hsd : src = dst
    · obtain ⟨st₂, K1, K2, K3⟩ := ih temps st₁ v hndf.2 hnds.2
        (fun p hp => hmark p (by simp [hp]))
        (fun p hp h => hid p (by simp [hp]) h)
        (fun p hp h => by
          obtain ⟨t, h1, h2, h3, h4, h5⟩ := htmp p (by simp [hp]) h
          exact ⟨t, h1, h2, h3, h4, fun p' hp' => h5 p' (by simp [hp'])⟩)
      have hdst_frame1 : ∀ p ∈ rest, dst ≠ p.2 := by
        intro p hp h
        exact hnds.1 (h ▸ List.mem_map.mpr ⟨p, hp, rfl⟩)
      have hdst_frame2 : ∀ p ∈ rest, p.1 ≠ p.2 → lookupAssocStr temps p.1 ≠ some dst := by
        intro p hp h hcontra
        obtain ⟨t, h1, _, _, h4, _⟩ := htmp p (by simp [hp]) h
        rw [h1] at hcontra
        simp only [Option.some.injEq] at hcontra
        rw [hcontra] at h4
        rw [hmark (src, dst) (by simp)] at h4
        exact absurd h4 (by simp)
      refine ⟨st₂, ?_, ?_, ?_⟩
      · show commitPhase temps ((src, dst) :: rest) st₁ = _
        unfold commitPhase
        rw [if_pos hsd]
        exact K1
      · intro p hp
        rcases List.mem_cons.mp hp with hp | hp
        · subst hp
          show lookupFS st₂.fs dst = v src
          rw [K3 dst hdst_frame1 hdst_frame2]
          exact hid (src, dst) (by simp) hsd
        · exact K2 p hp
      · intro q hq1 hq2
        exact K3 q (fun p hp => hq1 p (by simp [hp]))
          (fun p hp h => hq2 p (by simp [hp]) h)
    · obtain ⟨t, hta, htl, htv, htm, htu⟩ := htmp (src, dst) (by simp) hsd
      have ht_ne_dst : t ≠ dst := by
        intro h
        rw [h, hmark (src, dst) (by simp)] at htm
        exact absurd htm (by simp)
      have key : ∃ st₃,
          commitPhase temps ((src, dst) :: rest) st₁ = commitPhase temps rest st₃ ∧
          ∀ q, lookupFS st₃.fs q =
            if q = dst then v src else if q = t then none else lookupFS st₁.fs q := by
        cases hdl : lookupFS st₁.fs dst with
        | some f =>
          have hdlL : lookupFS (St.log st₁ (.statEv dst)).fs dst = some f := hdl
          obtain ⟨st₁', hrem, hrpid, hrlook⟩ := removeSt_some hdlL
          have ht_some : (lookupFS st₁'.fs t).isSome = true := by
            rw [hrlook t, if_neg ht_ne_dst]
            show (lookupFS st₁.fs t).isSome = true
            rw [htl]
            exact htv
          obtain ⟨st₃, hren2⟩ := @renameSt_of_isSome _ _ dst ht_some
          obtain ⟨_, _, hlook₃⟩ := renameSt_true hren2
          refine ⟨st₃, ?_, ?_⟩
          · show commitPhase temps ((src, dst) :: rest) st₁ = _
            conv_lhs => unfold commitPhase
            rw [if_neg hsd]
            simp only [hta, statSt, hdl, hrem, hren2]
          · intro q
            rw [hlook₃ q]
            by_cases h1 : q = dst
            · rw [if_pos h1, if_pos h1, hrlook t, if_neg ht_ne_dst]
              show lookupFS st₁.fs t = v src
              exact htl
            · rw [if_neg h1, if_neg h1]
              by_cases h2 : q = t
              · rw [if_pos h2, if_pos h2]
              · rw [if_neg h2, if_neg h2, hrlook q, if_neg h1]
                rfl
        | none =>
          have ht_some : (lookupFS (St.log st₁ (.statEv dst)).fs t).isSome = true := by
            show (lookupFS st₁.fs t).isSome = true
            rw [htl]; exact htv
          obtain ⟨st₃, hren2⟩ := @renameSt_of_isSome _ _ dst ht_some
          obtain ⟨_, _, hlook₃⟩ := renameSt_true hren2
          refine ⟨st₃, ?_, ?_⟩
          · show commitPhase temps ((src, dst) :: rest) st₁ = _
            conv_lhs => unfold commitPhase
            rw [if_neg hsd]
            simp only [hta, statSt, hdl, hren2]
          · intro q
            rw [hlook₃ q]
            by_cases h1 : q = dst
            · rw [if_pos h1, if_pos h1]
              show lookupFS st₁.fs t = v src
              exact htl
            · rw [if_neg h1, if_neg h1]
              by_cases h2 : q = t
              · rw [if_pos h2, if_pos h2]
              · rw [if_neg h2, if_neg h2]
                rfl
      obtain ⟨st₃, keyEq, keyLook⟩ := key
      have hid₃ : ∀ p ∈ rest, p.1 = p.2 → lookupFS st₃.fs p.2 = v p.1 := by
        intro p hp h
        have hp2_ne_dst : p.2 ≠ dst := by
          intro hh
          exact hnds.1 (hh ▸ List.mem_map.mpr ⟨p, hp, rfl⟩)
        have hp2_ne_t : p.2 ≠ t := by
          intro hh
          rw [← hh, hmark p (by simp [hp])] at htm
          exact absurd htm (by simp)
        rw [keyLook p.2, if_neg hp2_ne_dst, if_neg hp2_ne_t]
        exact hid p (by simp [hp]) h
      have htmp₃ : ∀ p ∈ rest, p.1 ≠ p.2 → ∃ t', lookupAssocStr temps p.1 = some t' ∧
          lookupFS st₃.fs t' = v p.1 ∧ (v p.1).isSome = true ∧
          goContains t' ".renby.tmp." = true ∧
          (∀ p' ∈ rest, p'.1 ≠ p.1 → p'.1 ≠ p'.2 →
            lookupAssocStr temps p'.1 ≠ some t') := by
        intro p hp h
        obtain ⟨t', h1, h2, h3, h4, h5⟩ := htmp p (by simp [hp]) h
        have hp1_ne_src : p.1 ≠ src := by
          intro hh
          exact hndf.1 (hh ▸ List.mem_map.mpr ⟨p, hp, rfl⟩)
        have ht'_ne_t : t' ≠ t := by
          intro hh
          exact htu p (by simp [hp]) hp1_ne_src h (hh ▸ h1)
        have ht'_ne_dst : t' ≠ dst := by
          intro hh
          rw [hh, hmark (src, dst) (by simp)] at h4
          exact absurd h4 (by simp)
        refine ⟨t', h1, ?_, h3, h4, fun p' hp' => h5 p' (by simp [hp'])⟩
        rw [keyLook t', if_neg ht'_ne_dst, if_neg ht'_ne_t]
        exact h2
      obtain ⟨st₂, K1, K2, K3⟩ := ih temps st₃ v hndf.2 hnds.2
        (fun p hp => hmark p (by simp [hp])) hid₃ htmp₃
      have hdst_frame1 : ∀ p ∈ rest, dst ≠ p.2 := by
        intro p hp hh
        exact hnds.1 (hh ▸ List.mem_map.mpr ⟨p, hp, rfl⟩)
      have hdst_frame2 : ∀ p ∈ rest, p.1 ≠ p.2 → lookupAssocStr temps p.1 ≠ some dst := by
        intro p hp h hcontra
        obtain ⟨t', h1, _, _, h4, _⟩ := htmp p (by simp [hp]) h
        rw [h1] at hcontra
        simp only [Option.some.injEq] at hcontra
        rw [hcontra, hmark (src, dst) (by simp)] at h4
        exact absurd h4 (by simp)
      refine ⟨st₂, by rw [keyEq]; exact K1, ?_, ?_⟩
      · intro p hp
        rcases List.mem_cons.mp hp with hp | hp
        · subst hp
          show lookupFS st₂.fs dst = v src
          rw [K3 dst hdst_frame1 hdst_frame2, keyLook dst, if_pos rfl]
        · exact K2 p hp
      · intro q hq1 hq2
        have hq_ne_dst : q ≠ dst := hq1 (src, dst) (by simp)
        have hq_ne_t : q ≠ t := by
          intro hh
          exact hq2 (src, dst) (by simp) hsd (hh ▸ hta)
        rw [K3 q (fun p hp => hq1 p (by simp [hp])) (fun p hp h => hq2 p (by simp [hp]) h),
          keyLook q, if_neg hq_ne_dst, if_neg hq_ne_t]

/-! ## C2: the two-phase commit of force mode -/

/-- **C2** (counterexample).  Force mode does not preserve every source's
content at its planned destination: with `Post = "/../x"` the `..` segment
is cleaned away by `filepath.Join`, the generated ordinal disappears from
every destination, and both sources `"a"` and `"b"` map to the single
destination `"x"`.  The conflict list flags this, but force mode ignores
it and executes the duplicate-destination plan: the commit pass removes
the first committed file before moving the second temp into place, so the
run succeeds while the content of source `"a"` (content id 1) has been
destroyed -- its planned destination `"x"` ends up holding the content of
`"b"` and the final filesystem holds one file where there were two. -/
theorem renameFiles_force_duplicate_dst_loses_data :
    (buildPlan (sortFiles [modelInfo c2FS "a", modelInfo c2FS "b"] SortBySize false) c2Opts).1
        = [("a", "x"), ("b", "x")] ∧
    (RenameFiles ["a", "b"] c2Opts ⟨c2FS, [], 7⟩).toOption.map St.fs
        = some [("x", c2bFile)] ∧
    c2aFile.content = 1 ∧ c2bFile.content = 2 := by
  refine ⟨by decide, ?_, rfl, rfl⟩
  decide

/-- **C2** (amended).  On plans whose destinations are pairwise distinct
and never contain the temp marker `.renby.tmp.` (and whose trimmed
destination bases are slash-free), the two-phase commit is correct for
every plan shape, including rename cycles and overwrite chains: staging
then committing succeeds and leaves every planned destination holding
exactly the file that was at the corresponding source, no intermediate
step having clobbered a file still needed as a rename source. -/
theorem renameFiles_twophase_correct (plan : List (String × String)) (st : St)
    (hndf : (plan.map Prod.fst).Nodup)
    (hnds : (plan.map Prod.snd).Nodup)
    (hsrc : ∀ p ∈ plan, (lookupFS st.fs p.1).isSome = true)
    (hmark : ∀ p ∈ plan, goContains p.2 ".renby.tmp." = false)
    (hslash : ∀ p ∈ plan, p.1 ≠ p.2 →
      ∀ ch ∈ (goTrimSuffix (goBase p.2) (goExt p.2)).data, ch ≠ '/') :
    ∃ temps c' st₁ st₂,
      stagePhase plan 0 [] st = .ok (temps, c', st₁) ∧
      commitPhase temps plan st₁ = .ok st₂ ∧
      ∀ p ∈ plan, lookupFS st₂.fs p.2 = lookupFS st.fs p.1 := by
  obtain ⟨tnew, c', st₁, H1, H2, H3, H4, H5, H6, H7, H8, H9⟩ :=
    stagePhase_spec plan 0 [] st hndf hsrc hslash
  have hfsrc : ∀ p ∈ plan, p.1 = p.2 →
      p.2 ∉ (plan.filter (fun q => q.1 ≠ q.2)).map Prod.fst := by
    intro p hp hpe hmem
    rcases List.mem_map.mp hmem with ⟨q, hql, hq1⟩
    have hq := List.mem_filter.mp hql
    have hqne : q.1 ≠ q.2 := by simpa using hq.2
    have hq2 : q.2 = p.2 := by
      refine eq_snd_of_mem_of_nodup_fst hndf (show (q.1, q.2) ∈ plan from hq.1) ?_
      rw [hq1]
      nth_rewrite 1 [← hpe]
      exact hp
    exact hqne (hq1.trans hq2.symm)
  have hnotemp : ∀ p ∈ plan, p.1 = p.2 → p.2 ∉ tnew.map Prod.snd := by
    intro p hp hpe hmem
    rcases List.mem_map.mp hmem with ⟨tp, htp, htp2⟩
    rcases H7 tp htp with hnone | hsrcmem
    · rw [htp2] at hnone
      have hs := hsrc p hp
      rw [hpe, hnone] at hs
      simp at hs
    · rw [htp2] at hsrcmem
      exact hfsrc p hp hpe hsrcmem
  have hid : ∀ p ∈ plan, p.1 = p.2 → lookupFS st₁.fs p.2 = lookupFS st.fs p.1 := by
    intro p hp hpe
    rw [H8 p.2 (hnotemp p hp hpe) (hfsrc p hp hpe), hpe]
  have htmp : ∀ p ∈ plan, p.1 ≠ p.2 → ∃ t, lookupAssocStr tnew p.1 = some t ∧
      lookupFS st₁.fs t = lookupFS st.fs p.1 ∧ (lookupFS st.fs p.1).isSome = true ∧
      goContains t ".renby.tmp." = true ∧
      (∀ p' ∈ plan, p'.1 ≠ p.1 → p'.1 ≠ p'.2 → lookupAssocStr tnew p'.1 ≠ some t) := by
    intro p hp hne
    have hmemf : p.1 ∈ tnew.map Prod.fst := by
      rw [H3]
      exact List.mem_map.mpr ⟨p, List.mem_filter.mpr ⟨hp, by simpa using hne⟩, rfl⟩
    obtain ⟨t, ht, htmem⟩ := lookupAssocStr_of_mem_keys hmemf
    refine ⟨t, ht, H6 (p.1, t) htmem, hsrc p hp, H5 (p.1, t) htmem, ?_⟩
    intro p' hp' hne1 hne2 hcontra
    exact hne1 (eq_fst_of_mem_of_nodup_snd H4 (lookupAssocStr_mem hcontra) htmem)
  obtain ⟨st₂, K1, K2, K3⟩ :=
    commitPhase_spec plan tnew st₁ (fun s => lookupFS st.fs s) hndf hnds hmark hid htmp
  refine ⟨tnew, c', st₁, st₂, ?_, K1, K2⟩
  simpa using H1

/-- Witness for the amended C2 theorem: the two-file name-exchange plan
satisfies all hypotheses and the two-phase commit carries it out. -/
theorem renameFiles_twophase_correct_witness :
    ((swapPlan.map Prod.fst).Nodup ∧ (swapPlan.map Prod.snd).Nodup ∧
      (∀ p ∈ swapPlan, (lookupFS (⟨swapFS, [], 7⟩ : St).fs p.1).isSome = true) ∧
      (∀ p ∈ swapPlan, goContains p.2 ".renby.tmp." = false) ∧
      (∀ p ∈ swapPlan, p.1 ≠ p.2 →
        ∀ ch ∈ (goTrimSuffix (goBase p.2) (goExt p.2)).data, ch ≠ '/')) ∧
    (∃ temps c' st₁ st₂,
      stagePhase swapPlan 0 [] ⟨swapFS, [], 7⟩ = .ok (temps, c', st₁) ∧
      commitPhase temps swapPlan st₁ = .ok st₂ ∧
      ∀ p ∈ swapPlan, lookupFS st₂.fs p.2 = lookupFS (⟨swapFS, [], 7⟩ : St).fs p.1) :=
  ⟨⟨by decide, by decide, by decide, by decide, by decide⟩,
    renameFiles_twophase_correct swapPlan ⟨swapFS, [], 7⟩
      (by decide) (by decide) (by decide) (by decide) (by decide)⟩

/-! ## C9: temp-name generation -/

/-- **C9**.  Temp-name generation in force mode: (1) with the fuel
`stagePhase` supplies, the generation loop always terminates successfully
(by pigeonhole: counters give pairwise-distinct candidate names, and the
filesystem is finite); the returned name did not exist on disk when
generated, it is the candidate for the last counter value tried, the
shared counter strictly advances (and is returned one past the used
value, so it is never reused), and every earlier candidate tried was
rejected because it existed on disk.  (2) Consequently, all temp names
staged in one invocation are pairwise distinct. -/
theorem tempNames_fresh_and_distinct :
    (∀ (dir base ext : String) (c : Nat) (st : St),
      dir ≠ "" → (∀ ch ∈ base.data, ch ≠ '/') → (∀ ch ∈ ext.data, ch ≠ '/') →
      ∃ temp k st', genTempLoop dir base ext (st.fs.length + 1) c st = some (temp, k, st') ∧
        lookupFS st.fs temp = none ∧
        temp = tempCandidate dir base ext st.pid (k - 1) ∧ c < k ∧
        (∀ j, c ≤ j → j < k - 1 →
          (lookupFS st.fs (tempCandidate dir base ext st.pid j)).isSome = true)) ∧
    (∀ (plan : List (String × String)) (st : St) (temps : List (String × String))
        (c' : Nat) (st' : St),
      (plan.map Prod.fst).Nodup →
      (∀ p ∈ plan, (lookupFS st.fs p.1).isSome = true) →
      (∀ p ∈ plan, p.1 ≠ p.2 →
        ∀ ch ∈ (goTrimSuffix (goBase p.2) (goExt p.2)).data, ch ≠ '/') →
      stagePhase plan 0 [] st = .ok (temps, c', st') →
      (temps.map Prod.snd).Nodup) := by
  constructor
  · intro dir base ext c st hdir hbase hext
    obtain ⟨temp, k, st', hres⟩ := genTempLoop_succeeds dir base ext st c hdir hbase hext
    obtain ⟨hfresh, _, _, hck, hcand, htried⟩ :=
      genTempLoop_some_spec dir base ext _ c st temp k st' hres
    exact ⟨temp, k, st', hres, hfresh, hcand, hck, htried⟩
  · intro plan st temps c' st' hndf hsrc hslash hrun
    obtain ⟨tnew, c'', st'', H1, _, _, H4, _⟩ :=
      stagePhase_spec plan 0 [] st hndf hsrc hslash
    rw [hrun] at H1
    simp only [List.nil_append, Except.ok.injEq, Prod.mk.injEq] at H1
    rw [H1.1]
    exact H4

/-- Witness for C9: a concrete generation run (empty disk, destination
stem `x`/`.txt`) and the staged temps of the concrete name-exchange run,
which are pairwise distinct. -/
theorem tempNames_fresh_and_distinct_witness :
    (("." : String) ≠ "" ∧ (∀ ch ∈ ("x" : String).data, ch ≠ '/') ∧
      (∀ ch ∈ (".txt" : String).data, ch ≠ '/')) ∧
    (∃ temp k st', genTempLoop "." "x" ".txt" ((⟨[], [], 7⟩ : St).fs.length + 1) 0 ⟨[], [], 7⟩
        = some (temp, k, st') ∧
      lookupFS (⟨[], [], 7⟩ : St).fs temp = none ∧
      temp = tempCandidate "." "x" ".txt" (⟨[], [], 7⟩ : St).pid (k - 1) ∧ 0 < k ∧
      (∀ j, 0 ≤ j → j < k - 1 →
        (lookupFS (⟨[], [], 7⟩ : St).fs
          (tempCandidate "." "x" ".txt" (⟨[], [], 7⟩ : St).pid j)).isSome = true)) ∧
    (stagePhase swapPlan 0 [] ⟨swapFS, [], 7⟩ = .ok (swapTemps, 2, swapStagedSt) ∧
      (swapTemps.map Prod.snd).Nodup) :=
  ⟨⟨by decide, by decide, by decide⟩,
   tempNames_fresh_and_distinct.1 "." "x" ".txt" 0 ⟨[], [], 7⟩ (by decide) (by decide)
     (by decide),
   by decide,
   tempNames_fresh_and_distinct.2 swapPlan ⟨swapFS, [], 7⟩ swapTemps 2 swapStagedSt
     (by decide) (by decide) (by decide) (by decide)⟩
